import Mathlib

/-!
Shallow embedding of the hex-percolation grid engine (src/hex.js and
src/unnamed/part_000, which extends hex.js with the dual-origin battle
engine).  JavaScript `Map` objects keyed by `numKey(q, r)` are modelled as
association lists in insertion order; `Map.get`/`has`/`set` become
`mapGet`/`mapHas`/`mapSet`.  `Math.random() < 0.5` is modelled by an
injected bit stream `rand : Nat → Bool` together with an index stored in
the grid state.  Rendering-only state (`hexInstances`,
`instanceBufferDirty`, canvas work) is omitted: it never feeds back into
the algorithms.  Unbounded `while` loops are given explicit fuel; the
loops that the source bounds itself (`MAX_POCKET_SIZE`,
`MAX_UNTESTED_SEARCH`) use the source's own bound as the fuel.
-/

/-- `numKey` from the source: `(q + KEY_OFFSET) * KEY_MULTIPLIER + (r + KEY_OFFSET)`
with `KEY_OFFSET = 50000`, `KEY_MULTIPLIER = 100000`.  No range check is
performed by the source. -/
def numKey (q r : Int) : Int :=
  (q + 50000) * 100000 + (r + 50000)

/-- `decodeKey` from the source: `Math.floor(key / KEY_MULTIPLIER) - KEY_OFFSET`
and `(key % KEY_MULTIPLIER) - KEY_OFFSET`.  JavaScript `Math.floor` of the
real quotient is flooring division (`Int.fdiv`), and JavaScript `%` is the
truncated remainder (`Int.tmod`). -/
def decodeKey (key : Int) : Int × Int :=
  (key.fdiv 100000 - 50000, key.tmod 100000 - 50000)

/-- The supported coordinate range documented in the source:
"Supports coords from -50000 to +49999". -/
def inRange (q r : Int) : Prop :=
  -50000 ≤ q ∧ q ≤ 49999 ∧ -50000 ≤ r ∧ r ≤ 49999

instance (q r : Int) : Decidable (inRange q r) := by
  unfold inRange; infer_instance

/-- Strictly interior coordinates: the cell and all six of its neighbours
are within the supported range. -/
def inSafe (q r : Int) : Prop :=
  -49999 ≤ q ∧ q ≤ 49998 ∧ -49999 ≤ r ∧ r ≤ 49998

instance (q r : Int) : Decidable (inSafe q r) := by
  unfold inSafe; infer_instance

/-- `NEIGHBOR_OFFSETS` from the source. -/
def NEIGHBOR_OFFSETS : List (Int × Int) :=
  [(1, 0), (1, -1), (0, -1), (-1, 0), (-1, 1), (0, 1)]

/-- A JavaScript `Map` from numeric keys to colors (`true` = white,
`false` = black), as an association list in insertion order. -/
abbrev Grid := List (Int × Bool)

/-- `Map.get`: the value stored at `key`, or `none`. -/
def mapGet : Grid → Int → Option Bool
  | [], _ => none
  | (k, v) :: rest, key => if k = key then some v else mapGet rest key

/-- `Map.has`. -/
def mapHas (m : Grid) (key : Int) : Bool :=
  (mapGet m key).isSome

/-- `Map.set`: overwrites in place when the key is present (keeping
insertion order), appends otherwise. -/
def mapSet : Grid → Int → Bool → Grid
  | [], key, v => [(key, v)]
  | (k, w) :: rest, key, v =>
      if k = key then (k, v) :: rest else (k, w) :: mapSet rest key v

/-- A `Map` never stores the same key twice. -/
def keysNodup (g : Grid) : Prop :=
  (g.map Prod.fst).Nodup

/-- Every stored key encodes a strictly interior coordinate pair. -/
def wellFormed (g : Grid) : Prop :=
  ∀ e ∈ g, ∃ q r, inSafe q r ∧ e.1 = numKey q r

/-- Grid store state: the color map plus the position in the injected
random bit stream. -/
structure GridSt where
  colors : Grid
  rngIdx : Nat

/-- `getHexColor` from the source: return the stored color, otherwise
draw one random bit, store it and return it. -/
def getHexColor (rand : Nat → Bool) (st : GridSt) (q r : Int) : Bool × GridSt :=
  let key := numKey q r
  match mapGet st.colors key with
  | some c => (c, st)
  | none =>
      let c := rand st.rngIdx
      (c, ⟨mapSet st.colors key c, st.rngIdx + 1⟩)

/-- `setHexColor` from the source: unconditionally stores the color
(the source's `isNew` test only guards the rendering instance list,
which is omitted here). -/
def setHexColor (st : GridSt) (q r : Int) (isWhite : Bool) : GridSt :=
  { st with colors := mapSet st.colors (numKey q r) isWhite }

/-- `hexDist` from the source: `(|q| + |r| + |-q-r|) / 2`; the sum is
always even, so JavaScript's real division is exact and Nat division
is faithful. -/
def hexDist (q r : Int) : Nat :=
  (q.natAbs + r.natAbs + (-q - r).natAbs) / 2

/-- The body of the neighbour loop in step 1 of `isHexTrapped` (the
same-color flood fill): skip the neighbour if it is already in the
region, otherwise add it to the region and to the queue when its stored
color equals the start color. -/
def sameColorStep (g : Grid) (c : Bool) (q r : Int)
    (acc : List Int × List Int) (d : Int × Int) : List Int × List Int :=
  let nk := numKey (q + d.1) (r + d.2)
  if acc.1.contains nk then acc
  else if mapGet g nk = some c then (nk :: acc.1, acc.2 ++ [nk]) else acc

/-- One neighbour-expansion round of step 1 of `isHexTrapped`: fold
`sameColorStep` over the six offsets.  Returns the new region and the
list of newly enqueued keys in discovery order. -/
def sameColorExpand (g : Grid) (c : Bool) (q r : Int) (region : List Int) :
    List Int × List Int :=
  NEIGHBOR_OFFSETS.foldl (sameColorStep g c q r) (region, [])

/-- Step 1 of `isHexTrapped`: BFS flood fill of the connected same-color
region.  The source's `while` loop always terminates because the region
can only contain stored keys; the fuel makes this explicit and
`isHexTrapped` passes enough of it. -/
def sameColorFlood (g : Grid) (c : Bool) : Nat → List Int → List Int → Option (List Int)
  | 0, _, _ => none
  | _ + 1, region, [] => some region
  | fuel + 1, region, key :: rest =>
      let p := decodeKey key
      let e := sameColorExpand g c p.1 p.2 region
      sameColorFlood g c fuel e.1 (rest ++ e.2)

/-- The body of the neighbour loop in step 2 of `isHexTrapped`: collect
the neighbour when it is unset, deduplicating. -/
def frontierStep (g : Grid) (q r : Int) (acc2 : List Int) (d : Int × Int) :
    List Int :=
  let nk := numKey (q + d.1) (r + d.2)
  if mapHas g nk then acc2
  else if acc2.contains nk then acc2 else acc2 ++ [nk]

/-- Step 2 of `isHexTrapped`: the untested (unset) cells adjacent to the
region, deduplicated in discovery order. -/
def untestedFrontierOf (g : Grid) (region : List Int) : List Int :=
  region.foldl
    (fun acc key =>
      let p := decodeKey key
      NEIGHBOR_OFFSETS.foldl (frontierStep g p.1 p.2) acc)
    []

/-- Step 3 of `isHexTrapped`: bounded BFS through unset cells only,
starting from the breathing frontier.  The fuel is the source's own
`MAX_UNTESTED_SEARCH` bound on the loop counter `head`: fuel 0 is the
source's `head >= MAX_UNTESTED_SEARCH` exit (assume escapable, `false`);
an empty queue is the source's exhausted-queue exit (truly trapped,
`true`, negated by the caller). -/
def untestedSearch (g : Grid) (maxDist : Nat) : Nat → List Int → List Int → Bool
  | 0, _, _ => false
  | _ + 1, _, [] => true
  | fuel + 1, visited, key :: rest =>
      let p := decodeKey key
      if maxDist ≤ hexDist p.1 p.2 then false
      else
        let e := NEIGHBOR_OFFSETS.foldl
          (fun acc d =>
            let nk := numKey (p.1 + d.1) (p.2 + d.2)
            if acc.1.contains nk then acc
            else match mapGet g nk with
              | some _ => acc
              | none => (nk :: acc.1, acc.2 ++ [nk]))
          (visited, ([] : List Int))
        untestedSearch g maxDist fuel e.1 (rest ++ e.2)

/-- `isHexTrapped` from the source.  Returns `some false` immediately
when the origin has no stored color; otherwise flood-fills the
same-color region (step 1), returns `some true` when its untested
frontier is empty (step 2), and otherwise runs the bounded untested-BFS
(step 3).  `none` would signal flood-fill fuel exhaustion, which the
supplied fuel `g.length + 2` rules out. -/
def isHexTrapped (g : Grid) (startQ startR : Int) (maxDist : Nat) : Option Bool :=
  let startKey := numKey startQ startR
  match mapGet g startKey with
  | none => some false
  | some startColor =>
      match sameColorFlood g startColor (g.length + 2) [startKey] [startKey] with
      | none => none
      | some region =>
          let frontier := untestedFrontierOf g region
          if frontier.isEmpty then some true
          else some (untestedSearch g maxDist 10000 frontier frontier)

/-- Connectivity through cells stored with color `c`, starting at
`(q0, r0)`: the specification's "same-color connected region". -/
inductive Reach (g : Grid) (c : Bool) (q0 r0 : Int) : Int → Int → Prop
  | refl : Reach g c q0 r0 q0 r0
  | step {q r : Int} (d : Int × Int) :
      Reach g c q0 r0 q r → d ∈ NEIGHBOR_OFFSETS →
      mapGet g (numKey (q + d.1) (r + d.2)) = some c →
      Reach g c q0 r0 (q + d.1) (r + d.2)

/-- The keys of the cells stored with color `c`, as a finite set. -/
def sckF (g : Grid) (c : Bool) : Finset Int :=
  ((g.filter (fun e => e.2 == c)).map Prod.fst).toFinset

/-- The neighbour loop of one `checkEncirclement` iteration: for each of
the six offsets in order, skip the neighbour if its key was already
visited, otherwise mark it visited, lazily color it via `getHexColor`,
and enqueue it at BFS depth `dist + 1` when it came out white.  Returns
the updated grid state, visited set, and newly enqueued entries in
order.  (The source's rendering/yield block between these steps has no
effect on the result.) -/
def escapeExpand (rand : Nat → Bool) (st : GridSt) (visited : List Int)
    (q r : Int) (dist : Nat) : GridSt × List Int × List (Int × Int × Nat) :=
  NEIGHBOR_OFFSETS.foldl
    (fun acc d =>
      let nq := q + d.1
      let nr := r + d.2
      let nk := numKey nq nr
      if acc.2.1.contains nk then acc
      else
        let e := getHexColor rand acc.1 nq nr
        if e.1 then (e.2, nk :: acc.2.1, acc.2.2 ++ [(nq, nr, dist + 1)])
        else (e.2, nk :: acc.2.1, acc.2.2))
    (st, visited, [])

/-- The main loop of `checkEncirclement` (`ESCAPE_DISTANCE = 10000`).
Each iteration dequeues one entry, folds its depth into
`maxDistReached`, returns escaped immediately when the depth reaches
the threshold, and otherwise expands the six neighbours.  The result
carries, besides the source's `{escaped, distance}` and the final grid
state, a ghost trace of the dequeued BFS depths in order (mirroring
exactly the source's `maxDistReached` update site), so that "maximum
distance observed" is expressible.  `none` is fuel exhaustion — the
source loop is unbounded, so theorems quantify over the fuel. -/
def bfsLoop (rand : Nat → Bool) :
    Nat → GridSt → List Int → List (Int × Int × Nat) → Nat →
      Option (Bool × Nat × List Nat × GridSt)
  | 0, _, _, _, _ => none
  | _ + 1, st, _, [], maxd => some (false, maxd, [], st)
  | fuel + 1, st, visited, (q, r, dist) :: rest, maxd =>
      let maxd2 := max maxd dist
      if 10000 ≤ dist then some (true, dist, [dist], st)
      else
        let e := escapeExpand rand st visited q r dist
        match bfsLoop rand fuel e.1 e.2.1 (rest ++ e.2.2) maxd2 with
        | none => none
        | some res => some (res.1, res.2.1, dist :: res.2.2.1, res.2.2.2)

/-- `checkEncirclement` from the source: BFS from the origin with the
origin pre-visited at depth 0. -/
def checkEncirclement (rand : Nat → Bool) (fuel : Nat) (st : GridSt)
    (startQ startR : Int) : Option (Bool × Nat × List Nat × GridSt) :=
  bfsLoop rand fuel st [numKey startQ startR] [(startQ, startR, 0)] 0

/-- The body of the neighbour loop in `getTouchedColors`: record a white
(`true`) or black (`false`) neighbour, leaving the other flag alone. -/
def touchStep (g : Grid) (q r : Int) (acc : Bool × Bool) (d : Int × Int) :
    Bool × Bool :=
  let nk := numKey (q + d.1) (r + d.2)
  match mapGet g nk with
  | some true => (true, acc.2)
  | some false => (acc.1, true)
  | none => acc

/-- `getTouchedColors` from the source: which colors the six neighbours
of an untested cell carry, as `(touchesWhite, touchesBlack)`. -/
def getTouchedColors (g : Grid) (q r : Int) : Bool × Bool :=
  NEIGHBOR_OFFSETS.foldl (touchStep g q r) (false, false)

/-- The cell has a stored white neighbour. -/
def hasWhiteNbr (g : Grid) (q r : Int) : Prop :=
  ∃ d ∈ NEIGHBOR_OFFSETS, mapGet g (numKey (q + d.1) (r + d.2)) = some true

instance (g : Grid) (q r : Int) : Decidable (hasWhiteNbr g q r) := by
  unfold hasWhiteNbr; infer_instance

/-- The cell has a stored black neighbour. -/
def hasBlackNbr (g : Grid) (q r : Int) : Prop :=
  ∃ d ∈ NEIGHBOR_OFFSETS, mapGet g (numKey (q + d.1) (r + d.2)) = some false

instance (g : Grid) (q r : Int) : Decidable (hasBlackNbr g q r) := by
  unfold hasBlackNbr; infer_instance

/-- The body of the neighbour loop in `getFrontiers` over a state
`(boundary, whiteFrontier, blackFrontier, seen)`: skip stored or seen
keys, otherwise mark the key seen and classify it by its touched
colors, exactly as the source's if / else-if chain. -/
def frontiersStep (g : Grid) (q r : Int)
    (acc : List Int × List Int × List Int × List Int) (d : Int × Int) :
    List Int × List Int × List Int × List Int :=
  let nq := q + d.1
  let nr := r + d.2
  let nk := numKey nq nr
  if mapHas g nk || acc.2.2.2.contains nk then acc
  else
    let t := getTouchedColors g nq nr
    if t.1 && t.2 then (acc.1 ++ [nk], acc.2.1, acc.2.2.1, nk :: acc.2.2.2)
    else if t.1 then (acc.1, acc.2.1 ++ [nk], acc.2.2.1, nk :: acc.2.2.2)
    else if t.2 then (acc.1, acc.2.1, acc.2.2.1 ++ [nk], nk :: acc.2.2.2)
    else (acc.1, acc.2.1, acc.2.2.1, nk :: acc.2.2.2)

/-- `getFrontiers` from the source: iterate over all stored cells and
classify each fresh unset neighbour into boundary / white-only /
black-only.  The internal `seen` set is returned as the fourth
component. -/
def getFrontiers (g : Grid) : List Int × List Int × List Int × List Int :=
  g.foldl
    (fun acc e =>
      let p := decodeKey e.1
      NEIGHBOR_OFFSETS.foldl (frontiersStep g p.1 p.2) acc)
    ([], [], [], [])

/-- `hasWhiteNbr` at the decoded coordinates of a key. -/
def touchW (g : Grid) (k : Int) : Prop :=
  hasWhiteNbr g (decodeKey k).1 (decodeKey k).2

/-- `hasBlackNbr` at the decoded coordinates of a key. -/
def touchB (g : Grid) (k : Int) : Prop :=
  hasBlackNbr g (decodeKey k).1 (decodeKey k).2

/-- Loop invariant of `getFrontiers` over its state
`(boundary, whiteFrontier, blackFrontier, seen)`: seen keys are unset,
in-range and classified into exactly the set dictated by their touched
colors, and all four lists are duplicate-free. -/
def FrontInv (g : Grid) (S : List Int × List Int × List Int × List Int) : Prop :=
  (∀ k ∈ S.2.2.2, mapHas g k = false ∧ ∃ q r, inRange q r ∧ k = numKey q r) ∧
  (∀ k, k ∈ S.1 ↔ (k ∈ S.2.2.2 ∧ touchW g k ∧ touchB g k)) ∧
  (∀ k, k ∈ S.2.1 ↔ (k ∈ S.2.2.2 ∧ touchW g k ∧ ¬touchB g k)) ∧
  (∀ k, k ∈ S.2.2.1 ↔ (k ∈ S.2.2.2 ∧ ¬touchW g k ∧ touchB g k)) ∧
  S.2.2.2.Nodup ∧ S.1.Nodup ∧ S.2.1.Nodup ∧ S.2.2.1.Nodup

/-- JavaScript's `%` on nonnegative reals: `a - b * Math.floor(a / b)`.
(For the positive operands used by `clockwiseAngle`, JavaScript's
truncated remainder agrees with this floored remainder.) -/
noncomputable def jsMod (a b : ℝ) : ℝ :=
  a - b * ((Int.floor (a / b) : Int) : ℝ)

/-- `clockwiseAngle` from the source: project the axial cell to the
plane, take the counter-clockwise angle from due east
(`Math.atan2(y, x)`, which is `Complex.arg ⟨x, y⟩` over the exact
reals), and convert it to a clockwise angle in `[0, 2π)` via
`(2π - ccw + 2π) % (2π)`.  The source computes in floating point; this
model idealizes it over ℝ. -/
noncomputable def clockwiseAngle (q r : Int) : ℝ :=
  let x : ℝ := (q : ℝ) + (r : ℝ) / 2
  let y : ℝ := (r : ℝ) * Real.sqrt 3 / 2
  let ccw := Complex.arg ⟨x, y⟩
  jsMod (2 * Real.pi - ccw + 2 * Real.pi) (2 * Real.pi)

/-- The hex distance of a key's decoded cell, as the integer the source
compares with `bestDist` (initially -1). -/
def keyDist (key : Int) : Int :=
  (hexDist (decodeKey key).1 (decodeKey key).2 : Int)

/-- The clockwise angle of a key's decoded cell. -/
noncomputable def keyAngle (key : Int) : ℝ :=
  clockwiseAngle (decodeKey key).1 (decodeKey key).2

/-- The body of the loop in `selectNextFrontierHex` over the state
`(bestKey, bestDist, bestAngle)`: take the key when it is strictly
farther out, or equally far and strictly more clockwise. -/
noncomputable def selectStep (state : Option Int × Int × ℝ) (key : Int) :
    Option Int × Int × ℝ :=
  let dist := keyDist key
  let angle := keyAngle key
  if state.2.1 < dist ∨ (dist = state.2.1 ∧ state.2.2 < angle) then
    (some key, dist, angle)
  else state

/-- `selectNextFrontierHex` from the source: scan the frontier starting
from `bestKey = null`, `bestDist = -1`, `bestAngle = -1`. -/
noncomputable def selectNextFrontierHex (frontier : List Int) : Option Int :=
  (frontier.foldl selectStep (none, -1, -1)).1

/-- The body of the candidate-collection loop of `findEncircledPockets`:
collect an unset neighbour of a black cell, deduplicating
(`candidateSet`). -/
def candidateStep (g : Grid) (q r : Int) (acc : List Int) (d : Int × Int) :
    List Int :=
  let nk := numKey (q + d.1) (r + d.2)
  if mapHas g nk || acc.contains nk then acc else acc ++ [nk]

/-- The candidate collection of `findEncircledPockets`: every unset
neighbour of a stored black cell, in discovery order. -/
def collectCandidates (g : Grid) : List Int :=
  g.foldl
    (fun acc e =>
      if e.2 then acc
      else
        let p := decodeKey e.1
        NEIGHBOR_OFFSETS.foldl (candidateStep g p.1 p.2) acc)
    []

/-- The body of the neighbour loop of one pocket flood-fill iteration
over `(visited, newly enqueued cells, touchesWhite)`: skip visited
keys, otherwise mark visited and either record a touched white cell or
enqueue the unset neighbour. -/
def pocketStep (g : Grid) (q r : Int)
    (acc : List Int × List (Int × Int) × Bool) (d : Int × Int) :
    List Int × List (Int × Int) × Bool :=
  let nq := q + d.1
  let nr := r + d.2
  let nk := numKey nq nr
  if acc.1.contains nk then acc
  else
    match mapGet g nk with
    | some c => (nk :: acc.1, acc.2.1, acc.2.2 || c)
    | none => (nk :: acc.1, acc.2.1 ++ [(nq, nr)], acc.2.2)

/-- One pocket flood fill of `findEncircledPockets`
(`MAX_POCKET_SIZE = 10000`).  Each iteration dequeues one cell, counts
it, records its key in the global `checkedUntested` set, breaks once
the size exceeds the bound, and otherwise expands the six neighbours.
Result: `(pocketSize, touchesWhite, checkedUntested, members)`, where
`members` is a ghost trace of the dequeued cells (mirroring exactly the
source's `pocketSize`/`checkedUntested` update site).  The fuel models
the source's size bound: the top-level call passes `10001`, and since
every iteration increments `size`, the fuel cannot run out before the
size check breaks the loop. -/
def pocketFill (g : Grid) :
    Nat → List Int → List (Int × Int) → Nat → Bool → List Int →
      List (Int × Int) → Nat × Bool × List Int × List (Int × Int)
  | _, _, [], size, tw, checked, members => (size, tw, checked, members)
  | 0, _, _ :: _, size, tw, checked, members => (size, tw, checked, members)
  | fuel + 1, visited, (q, r) :: rest, size, tw, checked, members =>
      let k := numKey q r
      let size2 := size + 1
      let checked2 := checked ++ [k]
      let members2 := members ++ [(q, r)]
      if 10000 < size2 then (size2, tw, checked2, members2)
      else
        let e := NEIGHBOR_OFFSETS.foldl (pocketStep g q r) (visited, [], tw)
        pocketFill g fuel e.1 (rest ++ e.2.1) size2 e.2.2 checked2 members2

/-- `findEncircledPockets` from the source: flood-fill each candidate
not already covered by an earlier fill, and report the pocket size when
the component never touched white and stayed within the size bound.
Besides the source's list of pocket sizes, the result carries a ghost
list of the reported pockets' member cells. -/
def findEncircledPockets (g : Grid) : List Nat × List (List (Int × Int)) :=
  let res := (collectCandidates g).foldl
    (fun acc cand =>
      if acc.1.contains cand then acc
      else
        let p := decodeKey cand
        let f := pocketFill g 10001 [cand] [(p.1, p.2)] 0 false acc.1 []
        if !f.2.1 && decide (f.1 ≤ 10000) && decide (0 < f.1) then
          (f.2.2.1, acc.2.1 ++ [f.1], acc.2.2 ++ [f.2.2.2])
        else (f.2.2.1, acc.2.1, acc.2.2))
    (([] : List Int), ([] : List Nat), ([] : List (List (Int × Int))))
  (res.2.1, res.2.2)

/-- Connectivity through unset cells: the pocket flood fill's search
space.  Every reached cell, the start included, is unset. -/
inductive PReach (g : Grid) (s : Int × Int) : Int × Int → Prop
  | refl : mapGet g (numKey s.1 s.2) = none → PReach g s s
  | step (p : Int × Int) (d : Int × Int) :
      PReach g s p → d ∈ NEIGHBOR_OFFSETS →
      mapGet g (numKey (p.1 + d.1) (p.2 + d.2)) = none →
      PReach g s (p.1 + d.1, p.2 + d.2)

/-- What holds of a reported pocket with respect to the global
`checkedUntested` set: its members are unset, never adjacent to white,
closed under unset adjacency (at the key level), and all recorded as
checked. -/
def PocketGood (g : Grid) (checked : List Int) (m : List (Int × Int)) : Prop :=
  (∀ p ∈ m, mapGet g (numKey p.1 p.2) = none) ∧
  (∀ p ∈ m, ∀ d ∈ NEIGHBOR_OFFSETS,
      mapGet g (numKey (p.1 + d.1) (p.2 + d.2)) ≠ some true) ∧
  (∀ p ∈ m, ∀ d ∈ NEIGHBOR_OFFSETS,
      mapGet g (numKey (p.1 + d.1) (p.2 + d.2)) = none →
      ∃ p2 ∈ m, numKey p2.1 p2.2 = numKey (p.1 + d.1) (p.2 + d.2)) ∧
  (∀ p ∈ m, numKey p.1 p.2 ∈ checked)

/-- The scenario grid: a friendly (white) cell at (0,0) surrounded by a
complete ring of hostile (black) cells placed via `setHexColor`. -/
def ringSt : GridSt :=
  setHexColor (setHexColor (setHexColor (setHexColor (setHexColor (setHexColor
    (setHexColor ⟨[], 0⟩ 0 0 true) 1 0 false) 1 (-1) false) 0 (-1) false)
    (-1) 0 false) (-1) 1 false) 0 1 false

-- ---------------------------------------------------------------------
-- Theorems
-- ---------------------------------------------------------------------

theorem mapGet_mapSet_self : ∀ (m : Grid) (k : Int) (v : Bool),
    mapGet (mapSet m k v) k = some v
  | [], k, v => by simp [mapSet, mapGet]
  | (k0, v0) :: rest, k, v => by
      by_cases h : k0 = k
      · simp [mapSet, h, mapGet]
      · simp [mapSet, h, mapGet, mapGet_mapSet_self rest k v]

theorem mapSet_length_of_get_none : ∀ (m : Grid) (k : Int) (v : Bool),
    mapGet m k = none → (mapSet m k v).length = m.length + 1
  | [], k, v, _ => by simp [mapSet]
  | (k0, v0) :: rest, k, v, h => by
      by_cases he : k0 = k
      · simp [mapGet, he] at h
      · simp only [mapGet, if_neg he] at h
        simp [mapSet, he, mapSet_length_of_get_none rest k v h]

theorem mapGet_mem : ∀ {m : Grid} {k : Int} {v : Bool},
    mapGet m k = some v → (k, v) ∈ m
  | [], k, v, h => by simp [mapGet] at h
  | (k0, v0) :: rest, k, v, h => by
      by_cases he : k0 = k
      · simp only [mapGet, if_pos he] at h
        simp [← he, Option.some_inj.mp h]
      · simp only [mapGet, if_neg he] at h
        exact List.mem_cons_of_mem _ (mapGet_mem h)

/-- Helper: the round trip, used below. -/
theorem decodeKey_numKey {q r : Int} (hq0 : -50000 ≤ q) (hq1 : q ≤ 49999)
    (hr0 : -50000 ≤ r) (hr1 : r ≤ 49999) :
    decodeKey (numKey q r) = (q, r) := by
  unfold decodeKey numKey
  have hkey : (0:Int) ≤ (q + 50000) * 100000 + (r + 50000) := by nlinarith
  rw [Int.fdiv_eq_ediv _ (by norm_num), Int.tmod_eq_emod _ (by norm_num)]
  · rw [Prod.mk.injEq]
    omega
  · exact hkey

/-- C1: for every axial pair (q, r) inside the supported range,
`decodeKey (numKey q r) = (q, r)`. -/
theorem codec_roundtrip (q r : Int) (h : inRange q r) :
    decodeKey (numKey q r) = (q, r) := by
  obtain ⟨hq0, hq1, hr0, hr1⟩ := h
  exact decodeKey_numKey hq0 hq1 hr0 hr1

/-- Witness for C1 at (q, r) = (123, -4567). -/
theorem codec_roundtrip_witness :
    inRange 123 (-4567) ∧ decodeKey (numKey 123 (-4567)) = (123, -4567) :=
  ⟨by decide, codec_roundtrip 123 (-4567) (by decide)⟩

/-- C6 counterexample: `setHexColor` on an already-set cell does not fail;
it silently replaces the stored color.  (0,0) is set white, then set
black: the stored color afterwards is black. -/
theorem setHexColor_overwrite_counterexample :
    mapGet (setHexColor ⟨[], 0⟩ 0 0 true).colors (numKey 0 0) = some true ∧
      mapGet (setHexColor (setHexColor ⟨[], 0⟩ 0 0 true) 0 0 false).colors
        (numKey 0 0) = some false := by
  constructor <;> rfl

/-- C6 amended: `setHexColor` never fails; it unconditionally stores the
given color, so a second `setHexColor` on the same cell silently
overwrites the first. -/
theorem setHexColor_overwrites (st : GridSt) (q r : Int) (c0 c1 : Bool) :
    mapGet (setHexColor (setHexColor st q r c0) q r c1).colors (numKey q r)
      = some c1 :=
  mapGet_mapSet_self _ _ _

/-- C7 counterexample: for the out-of-range pair (0, 100000) the encoder
does not fail; it returns a key, and that key collides with the
in-range pair (1, 0). -/
theorem numKey_no_range_error_counterexample :
    ¬inRange 0 100000 ∧ inRange 1 0 ∧ numKey 0 100000 = numKey 1 0 := by
  refine ⟨by decide, by decide, ?_⟩
  decide

/-- C7 amended: `numKey` performs no range validation; it is total and
out-of-range coordinates alias in-range keys by the wraparound pattern
`numKey q (r + 100000) = numKey (q + 1) r`. -/
theorem numKey_wraparound (q r : Int) :
    numKey q (r + 100000) = numKey (q + 1) r := by
  unfold numKey
  ring

/-- C9: calling `getHexColor` on a never-before-set cell returns the same
color on a second call, the grid gains exactly one entry on the first
call, and the second call leaves the state unchanged. -/
theorem getHexColor_stable (rand : Nat → Bool) (st : GridSt) (q r : Int)
    (h : mapGet st.colors (numKey q r) = none) :
    (getHexColor rand ((getHexColor rand st q r).2) q r).1
        = (getHexColor rand st q r).1 ∧
      (getHexColor rand st q r).2.colors.length = st.colors.length + 1 ∧
      (getHexColor rand ((getHexColor rand st q r).2) q r).2
        = (getHexColor rand st q r).2 := by
  have h1 : getHexColor rand st q r
      = (rand st.rngIdx,
         ⟨mapSet st.colors (numKey q r) (rand st.rngIdx), st.rngIdx + 1⟩) := by
    simp [getHexColor, h]
  have h2 : mapGet (mapSet st.colors (numKey q r) (rand st.rngIdx)) (numKey q r)
      = some (rand st.rngIdx) := mapGet_mapSet_self _ _ _
  refine ⟨?_, ?_, ?_⟩
  · rw [h1]
    simp [getHexColor, h2]
  · rw [h1]
    exact mapSet_length_of_get_none _ _ _ h
  · rw [h1]
    simp [getHexColor, h2]

/-- Witness for C9 on the empty grid at (2, 3) with a constant random
stream. -/
theorem getHexColor_stable_witness :
    mapGet (⟨[], 0⟩ : GridSt).colors (numKey 2 3) = none ∧
      ((getHexColor (fun _ => true) ((getHexColor (fun _ => true) ⟨[], 0⟩ 2 3).2) 2 3).1
          = (getHexColor (fun _ => true) ⟨[], 0⟩ 2 3).1 ∧
        (getHexColor (fun _ => true) ⟨[], 0⟩ 2 3).2.colors.length
          = (⟨[], 0⟩ : GridSt).colors.length + 1 ∧
        (getHexColor (fun _ => true) ((getHexColor (fun _ => true) ⟨[], 0⟩ 2 3).2) 2 3).2
          = (getHexColor (fun _ => true) ⟨[], 0⟩ 2 3).2) :=
  ⟨rfl, getHexColor_stable (fun _ => true) ⟨[], 0⟩ 2 3 rfl⟩

/-- C10: the trapped-region detector returns `false` immediately for a
cell with no assigned color: an unset origin is never reported
trapped. -/
theorem isHexTrapped_unset_origin (g : Grid) (q r : Int) (maxDist : Nat)
    (h : mapGet g (numKey q r) = none) :
    isHexTrapped g q r maxDist = some false := by
  simp [isHexTrapped, h]

/-- Witness for C10 on the ring-scenario grid at the unset cell (5, 5). -/
theorem isHexTrapped_unset_origin_witness :
    mapGet ringSt.colors (numKey 5 5) = none ∧
      isHexTrapped ringSt.colors 5 5 10000 = some false :=
  ⟨rfl, isHexTrapped_unset_origin ringSt.colors 5 5 10000 rfl⟩

/-- C3: (1) as soon as a dequeued cell has BFS depth at least the escape
threshold 10000, the loop returns `{escaped := true, distance := dist}`
immediately, for an arbitrary remaining queue — it does not drain it;
(2) whenever the loop returns `escaped = false`, the reported distance
is the maximum over all observed (dequeued) BFS depths and the initial
accumulator, and every observed depth was below the threshold;
(3) scenario: origin (0,0) friendly with all six neighbours forced
hostile returns encircled at distance 0, for every random stream. -/
theorem checkEncirclement_spec :
    (∀ (rand : Nat → Bool) (fuel : Nat) (st : GridSt) (visited : List Int)
        (q r : Int) (dist : Nat) (rest : List (Int × Int × Nat)) (maxd : Nat),
        10000 ≤ dist →
        bfsLoop rand (fuel + 1) st visited ((q, r, dist) :: rest) maxd
          = some (true, dist, [dist], st)) ∧
    (∀ (rand : Nat → Bool) (fuel : Nat) (st : GridSt) (visited : List Int)
        (queue : List (Int × Int × Nat)) (maxd m : Nat) (obs : List Nat)
        (stf : GridSt),
        bfsLoop rand fuel st visited queue maxd = some (false, m, obs, stf) →
        m = obs.foldl max maxd ∧ ∀ d ∈ obs, d < 10000) ∧
    (∀ rand : Nat → Bool,
        checkEncirclement rand 2 ringSt 0 0 = some (false, 0, [0], ringSt)) := by
  refine ⟨?_, ?_, ?_⟩
  · intro rand fuel st visited q r dist rest maxd h
    simp [bfsLoop, h]
  · intro rand fuel
    induction fuel with
    | zero =>
        intro st visited queue maxd m obs stf h
        simp [bfsLoop] at h
    | succ fuel ih =>
        intro st visited queue maxd m obs stf h
        match queue with
        | [] =>
            simp only [bfsLoop, Option.some_inj, Prod.mk.injEq] at h
            obtain ⟨-, h2, h3, -⟩ := h
            subst h2
            subst h3
            exact ⟨rfl, by simp⟩
        | (q, r, dist) :: rest =>
            simp only [bfsLoop] at h
            by_cases hd : 10000 ≤ dist
            · rw [if_pos hd] at h
              simp at h
            · rw [if_neg hd] at h
              rcases hrec : bfsLoop rand fuel (escapeExpand rand st visited q r dist).1
                  (escapeExpand rand st visited q r dist).2.1
                  (rest ++ (escapeExpand rand st visited q r dist).2.2)
                  (max maxd dist) with - | res
              · rw [hrec] at h
                simp at h
              · rw [hrec] at h
                obtain ⟨e, m0, obs0, st0⟩ := res
                simp only [Option.some_inj, Prod.mk.injEq] at h
                obtain ⟨he, hm, hobs, -⟩ := h
                subst he
                subst hm
                subst hobs
                obtain ⟨ihm, ihlt⟩ := ih _ _ _ _ _ _ _ hrec
                refine ⟨?_, ?_⟩
                · simpa using ihm
                · intro d hd2
                  rcases List.mem_cons.mp hd2 with h1 | h1
                  · subst h1
                    omega
                  · exact ihlt d h1
  · intro rand
    rfl

/-- Witness for C3: part (1) applied at a queue whose head is already at
depth 10000, with a nonempty remaining queue that is not drained. -/
theorem checkEncirclement_spec_witness :
    bfsLoop (fun _ => false) 1 ⟨[], 0⟩ [] [(0, 0, 10000), (7, 7, 3)] 0
      = some (true, 10000, [10000], ⟨[], 0⟩) :=
  checkEncirclement_spec.1 (fun _ => false) 0 ⟨[], 0⟩ [] 0 0 10000 [(7, 7, 3)] 0
    (by decide)


theorem sameColorStep_of_mem {g : Grid} {c : Bool} {q r : Int}
    {acc : List Int × List Int} {d : Int × Int}
    (h : numKey (q + d.1) (r + d.2) ∈ acc.1) :
    sameColorStep g c q r acc d = acc := by
  simp [sameColorStep, h]

theorem sameColorStep_of_color {g : Grid} {c : Bool} {q r : Int}
    {acc : List Int × List Int} {d : Int × Int}
    (h1 : numKey (q + d.1) (r + d.2) ∉ acc.1)
    (h2 : mapGet g (numKey (q + d.1) (r + d.2)) = some c) :
    sameColorStep g c q r acc d
      = (numKey (q + d.1) (r + d.2) :: acc.1,
         acc.2 ++ [numKey (q + d.1) (r + d.2)]) := by
  simp [sameColorStep, h1, h2]

theorem sameColorStep_of_other {g : Grid} {c : Bool} {q r : Int}
    {acc : List Int × List Int} {d : Int × Int}
    (h1 : numKey (q + d.1) (r + d.2) ∉ acc.1)
    (h2 : mapGet g (numKey (q + d.1) (r + d.2)) ≠ some c) :
    sameColorStep g c q r acc d = acc := by
  simp [sameColorStep, h1, h2]

theorem sameColorExpand_fold (g : Grid) (c : Bool) (q r : Int) :
    ∀ (L : List (Int × Int)) (acc : List Int × List Int),
      ∃ new : List Int,
        L.foldl (sameColorStep g c q r) acc
          = (new.reverse ++ acc.1, acc.2 ++ new) ∧
        new.Nodup ∧
        ∀ k ∈ new, k ∉ acc.1 ∧ mapGet g k = some c ∧
          ∃ d ∈ L, k = numKey (q + d.1) (r + d.2) := by
  intro L
  induction L with
  | nil =>
      intro acc
      exact ⟨[], by simp, List.nodup_nil, by simp⟩
  | cons d0 L ih =>
      intro acc
      rw [List.foldl_cons]
      by_cases hc : numKey (q + d0.1) (r + d0.2) ∈ acc.1
      · rw [sameColorStep_of_mem hc]
        obtain ⟨new, h1, h2, h3⟩ := ih acc
        refine ⟨new, h1, h2, ?_⟩
        intro k hk
        obtain ⟨ha, hb, d, hd, he⟩ := h3 k hk
        exact ⟨ha, hb, d, List.mem_cons_of_mem _ hd, he⟩
      · by_cases hg : mapGet g (numKey (q + d0.1) (r + d0.2)) = some c
        · rw [sameColorStep_of_color hc hg]
          obtain ⟨new, h1, h2, h3⟩ :=
            ih (numKey (q + d0.1) (r + d0.2) :: acc.1,
                acc.2 ++ [numKey (q + d0.1) (r + d0.2)])
          refine ⟨numKey (q + d0.1) (r + d0.2) :: new, ?_, ?_, ?_⟩
          · rw [h1]
            simp
          · refine List.Nodup.cons ?_ h2
            intro hmem
            exact (h3 _ hmem).1 (List.mem_cons_self _ _)
          · intro k hk
            rcases List.mem_cons.mp hk with hk1 | hk1
            · subst hk1
              exact ⟨hc, hg, d0, List.mem_cons_self _ _, rfl⟩
            · obtain ⟨ha, hb, d, hd, he⟩ := h3 k hk1
              exact ⟨fun hx => ha (List.mem_cons_of_mem _ hx), hb, d,
                List.mem_cons_of_mem _ hd, he⟩
        · rw [sameColorStep_of_other hc hg]
          obtain ⟨new, h1, h2, h3⟩ := ih acc
          refine ⟨new, h1, h2, ?_⟩
          intro k hk
          obtain ⟨ha, hb, d, hd, he⟩ := h3 k hk
          exact ⟨ha, hb, d, List.mem_cons_of_mem _ hd, he⟩

theorem sameColorExpand_spec (g : Grid) (c : Bool) (q r : Int)
    (region : List Int) :
    ∃ new : List Int,
      sameColorExpand g c q r region = (new.reverse ++ region, new) ∧
      new.Nodup ∧
      ∀ k ∈ new, k ∉ region ∧ mapGet g k = some c ∧
        ∃ d ∈ NEIGHBOR_OFFSETS, k = numKey (q + d.1) (r + d.2) := by
  obtain ⟨new, h1, h2, h3⟩ :=
    sameColorExpand_fold g c q r NEIGHBOR_OFFSETS (region, [])
  refine ⟨new, ?_, h2, h3⟩
  rw [sameColorExpand, h1]
  simp

theorem mem_sckF_of_mapGet {g : Grid} {c : Bool} {k : Int}
    (h : mapGet g k = some c) : k ∈ sckF g c := by
  have hm : (k, c) ∈ g := mapGet_mem h
  unfold sckF
  rw [List.mem_toFinset, List.mem_map]
  exact ⟨(k, c), List.mem_filter.mpr ⟨hm, by simp⟩, rfl⟩

theorem sameColorFlood_total_sound (g : Grid) (c : Bool) (q0 r0 : Int)
    (hin : ∀ q r, Reach g c q0 r0 q r → inRange q r) :
    ∀ (fuel : Nat) (region queue : List Int),
      (∀ k ∈ region, ∃ q r, Reach g c q0 r0 q r ∧ k = numKey q r) →
      (∀ k ∈ queue, k ∈ region) →
      region.Nodup →
      (sckF g c \ region.toFinset).card + queue.length + 1 ≤ fuel →
      ∃ res, sameColorFlood g c fuel region queue = some res ∧
        ∀ k ∈ res, ∃ q r, Reach g c q0 r0 q r ∧ k = numKey q r := by
  intro fuel
  induction fuel with
  | zero =>
      intro region queue _ _ _ hM
      omega
  | succ fuel ih =>
      intro region queue hreg hq hnd hM
      match queue with
      | [] =>
          exact ⟨region, rfl, hreg⟩
      | key :: rest =>
          obtain ⟨q, r, hre, hk⟩ := hreg key (hq key (List.mem_cons_self _ _))
          have hrange : inRange q r := hin q r hre
          have hdec : decodeKey key = (q, r) := by
            subst hk
            exact codec_roundtrip q r hrange
          obtain ⟨new, he, hnewnd, hprops⟩ := sameColorExpand_spec g c q r region
          have hstep : sameColorFlood g c (fuel + 1) region (key :: rest)
              = sameColorFlood g c fuel (new.reverse ++ region) (rest ++ new) := by
            show sameColorFlood g c fuel
                (sameColorExpand g c (decodeKey key).1 (decodeKey key).2 region).1
                (rest ++ (sameColorExpand g c (decodeKey key).1 (decodeKey key).2 region).2)
              = _
            rw [hdec]
            rw [he]
          rw [hstep]
          have hregion2 : ∀ k ∈ new.reverse ++ region,
              ∃ q2 r2, Reach g c q0 r0 q2 r2 ∧ k = numKey q2 r2 := by
            intro k hkmem
            rcases List.mem_append.mp hkmem with hk1 | hk1
            · obtain ⟨-, hcol, d, hd, hke⟩ := hprops k (List.mem_reverse.mp hk1)
              subst hke
              exact ⟨q + d.1, r + d.2, Reach.step d hre hd hcol, rfl⟩
            · exact hreg k hk1
          have hq2 : ∀ k ∈ rest ++ new, k ∈ new.reverse ++ region := by
            intro k hkmem
            rcases List.mem_append.mp hkmem with hk1 | hk1
            · exact List.mem_append.mpr (Or.inr (hq k (List.mem_cons_of_mem _ hk1)))
            · exact List.mem_append.mpr (Or.inl (List.mem_reverse.mpr hk1))
          have hnd2 : (new.reverse ++ region).Nodup := by
            refine List.Nodup.append (List.nodup_reverse.mpr hnewnd) hnd ?_
            intro a ha hb
            exact (hprops a (List.mem_reverse.mp ha)).1 hb
          have hsub : new.toFinset ⊆ sckF g c \ region.toFinset := by
            intro a ha
            rw [List.mem_toFinset] at ha
            obtain ⟨hnot, hcol, -⟩ := hprops a ha
            exact Finset.mem_sdiff.mpr
              ⟨mem_sckF_of_mapGet hcol, fun hx => hnot (List.mem_toFinset.mp hx)⟩
          have hM2 : (sckF g c \ (new.reverse ++ region).toFinset).card
              + (rest ++ new).length + 1 ≤ fuel := by
            have hcardnew : new.toFinset.card = new.length :=
              List.toFinset_card_of_nodup hnewnd
            have hsd : sckF g c \ (new.reverse ++ region).toFinset
                = (sckF g c \ region.toFinset) \ new.toFinset := by
              ext a
              simp only [Finset.mem_sdiff, List.toFinset_append, Finset.mem_union,
                List.toFinset_reverse, List.mem_toFinset]
              tauto
            have hcard : ((sckF g c \ region.toFinset) \ new.toFinset).card
                = (sckF g c \ region.toFinset).card - new.toFinset.card :=
              Finset.card_sdiff hsub
            have hle : new.toFinset.card ≤ (sckF g c \ region.toFinset).card :=
              Finset.card_le_card hsub
            rw [hsd, hcard, hcardnew]
            rw [List.length_append]
            rw [List.length_cons] at hM
            omega
          exact ih (new.reverse ++ region) (rest ++ new) hregion2 hq2 hnd2 hM2

theorem frontierStep_of_has {g : Grid} {q r : Int} {acc2 : List Int}
    {d : Int × Int} (h : mapHas g (numKey (q + d.1) (r + d.2)) = true) :
    frontierStep g q r acc2 d = acc2 := by
  simp [frontierStep, h]

theorem untestedFrontierOf_eq_nil (g : Grid) (region : List Int)
    (h : ∀ k ∈ region, ∃ q r, inRange q r ∧ k = numKey q r ∧
        ∀ d ∈ NEIGHBOR_OFFSETS, mapHas g (numKey (q + d.1) (r + d.2)) = true) :
    untestedFrontierOf g region = [] := by
  have inner : ∀ (q r : Int),
      (∀ d ∈ NEIGHBOR_OFFSETS, mapHas g (numKey (q + d.1) (r + d.2)) = true) →
      ∀ (L : List (Int × Int)) (acc : List Int), (∀ d ∈ L, d ∈ NEIGHBOR_OFFSETS) →
        L.foldl (frontierStep g q r) acc = acc := by
    intro q r hall L
    induction L with
    | nil => intro acc _; rfl
    | cons d0 L ihL =>
        intro acc hsub
        rw [List.foldl_cons, frontierStep_of_has (hall d0 (hsub d0 (List.mem_cons_self _ _)))]
        exact ihL acc (fun d hd => hsub d (List.mem_cons_of_mem _ hd))
  suffices hgen : ∀ (reg : List Int),
      (∀ k ∈ reg, ∃ q r, inRange q r ∧ k = numKey q r ∧
          ∀ d ∈ NEIGHBOR_OFFSETS, mapHas g (numKey (q + d.1) (r + d.2)) = true) →
      ∀ acc : List Int,
        reg.foldl (fun acc key =>
          let p := decodeKey key
          NEIGHBOR_OFFSETS.foldl (frontierStep g p.1 p.2) acc) acc = acc by
    exact hgen region h []
  intro reg
  induction reg with
  | nil => intro _ acc; rfl
  | cons k0 reg ihr =>
      intro hr acc
      rw [List.foldl_cons]
      obtain ⟨q, r, hrange, hk, hall⟩ := hr k0 (List.mem_cons_self _ _)
      have hdec : decodeKey k0 = (q, r) := by
        subst hk
        exact codec_roundtrip q r hrange
      have : (let p := decodeKey k0
          NEIGHBOR_OFFSETS.foldl (frontierStep g p.1 p.2) acc) = acc := by
        rw [hdec]
        exact inner q r hall NEIGHBOR_OFFSETS acc (fun d hd => hd)
      rw [this]
      exact ihr (fun k hk2 => hr k (List.mem_cons_of_mem _ hk2)) acc

/-- C4: if the breathing frontier of the origin's same-color connected
region is empty — every cell reachable from the colored origin through
same-colored cells has all six neighbours already colored — then
`isHexTrapped` reports trapped.  The range hypothesis keeps the
connected region inside the codec's supported coordinate range. -/
theorem isHexTrapped_sealed (g : Grid) (q0 r0 : Int) (c : Bool) (maxDist : Nat)
    (h0 : mapGet g (numKey q0 r0) = some c)
    (hin : ∀ q r, Reach g c q0 r0 q r → inRange q r)
    (hclosed : ∀ q r, Reach g c q0 r0 q r →
        ∀ d ∈ NEIGHBOR_OFFSETS, mapHas g (numKey (q + d.1) (r + d.2)) = true) :
    isHexTrapped g q0 r0 maxDist = some true := by
  obtain ⟨res, hflood, hres⟩ :=
    sameColorFlood_total_sound g c q0 r0 hin (g.length + 2)
      [numKey q0 r0] [numKey q0 r0]
      (by
        intro k hk
        rw [List.mem_singleton] at hk
        exact ⟨q0, r0, Reach.refl, hk⟩)
      (by intro k hk; exact hk)
      (List.nodup_singleton _)
      (by
        have h1 : (sckF g c \ ([numKey q0 r0] : List Int).toFinset).card
            ≤ (sckF g c).card := Finset.card_le_card (Finset.sdiff_subset)
        have h2 : (sckF g c).card ≤ g.length := by
          calc (sckF g c).card
              ≤ ((g.filter (fun e => e.2 == c)).map Prod.fst).length :=
                List.toFinset_card_le _
            _ = (g.filter (fun e => e.2 == c)).length := List.length_map _ _
            _ ≤ g.length := List.length_filter_le _ _
        simp only [List.length_singleton]
        omega)
  have hfr : untestedFrontierOf g res = [] := by
    refine untestedFrontierOf_eq_nil g res ?_
    intro k hk
    obtain ⟨q, r, hre, hke⟩ := hres k hk
    exact ⟨q, r, hin q r hre, hke, hclosed q r hre⟩
  simp only [isHexTrapped, h0, hflood, hfr]
  rfl

/-- Witness for C4: the sealed-ring scenario — a white cell at (0,0)
surrounded by six black cells with no unset neighbour is reported
trapped. -/
theorem isHexTrapped_sealed_witness :
    isHexTrapped ringSt.colors 0 0 10000 = some true := by
  have honly : ∀ q r, Reach ringSt.colors true 0 0 q r → q = 0 ∧ r = 0 := by
    intro q r h
    induction h with
    | refl => exact ⟨rfl, rfl⟩
    | step d hre hd hget ih =>
        obtain ⟨hq, hr⟩ := ih
        subst hq
        subst hr
        exfalso
        have hnone : ∀ d2 ∈ NEIGHBOR_OFFSETS,
            mapGet ringSt.colors (numKey (0 + d2.1) (0 + d2.2)) ≠ some true := by
          decide
        exact hnone d hd hget
  refine isHexTrapped_sealed ringSt.colors 0 0 true 10000 (by decide) ?_ ?_
  · intro q r h
    obtain ⟨hq, hr⟩ := honly q r h
    subst hq
    subst hr
    decide
  · intro q r h
    obtain ⟨hq, hr⟩ := honly q r h
    subst hq
    subst hr
    decide

theorem numKey_inj {q r q2 r2 : Int} (h1 : inRange q r) (h2 : inRange q2 r2)
    (h : numKey q r = numKey q2 r2) : q = q2 ∧ r = r2 := by
  have e1 := codec_roundtrip q r h1
  have e2 := codec_roundtrip q2 r2 h2
  rw [h, e2] at e1
  exact ⟨(Prod.mk.injEq _ _ _ _).mp e1.symm |>.1,
         (Prod.mk.injEq _ _ _ _).mp e1.symm |>.2⟩

theorem offsets_small : ∀ d ∈ NEIGHBOR_OFFSETS,
    -1 ≤ d.1 ∧ d.1 ≤ 1 ∧ -1 ≤ d.2 ∧ d.2 ≤ 1 := by decide

theorem inRange_of_inSafe_add {q r : Int} (h : inSafe q r) {d : Int × Int}
    (hd : d ∈ NEIGHBOR_OFFSETS) : inRange (q + d.1) (r + d.2) := by
  obtain ⟨h1, h2, h3, h4⟩ := offsets_small d hd
  obtain ⟨s1, s2, s3, s4⟩ := h
  exact ⟨by omega, by omega, by omega, by omega⟩

theorem touch_fold (g : Grid) (q r : Int) :
    ∀ (L : List (Int × Int)) (acc : Bool × Bool),
      L.foldl (touchStep g q r) acc
        = (acc.1 || L.any (fun d => mapGet g (numKey (q + d.1) (r + d.2)) == some true),
           acc.2 || L.any (fun d => mapGet g (numKey (q + d.1) (r + d.2)) == some false)) := by
  intro L
  induction L with
  | nil => intro acc; simp
  | cons d0 L ih =>
      intro acc
      rw [List.foldl_cons]
      rcases hg : mapGet g (numKey (q + d0.1) (r + d0.2)) with - | c
      · have hstep : touchStep g q r acc d0 = acc := by
          simp [touchStep, hg]
        rw [hstep, ih acc]
        simp [List.any_cons, hg]
      · cases c
        · have hstep : touchStep g q r acc d0 = (acc.1, true) := by
            simp [touchStep, hg]
          rw [hstep, ih ((acc.1, true) : Bool × Bool)]
          simp [List.any_cons, hg]
        · have hstep : touchStep g q r acc d0 = (true, acc.2) := by
            simp [touchStep, hg]
          rw [hstep, ih ((true, acc.2) : Bool × Bool)]
          simp [List.any_cons, hg]

theorem getTouchedColors_fst (g : Grid) (q r : Int) :
    (getTouchedColors g q r).1 = true ↔ hasWhiteNbr g q r := by
  unfold getTouchedColors hasWhiteNbr
  rw [touch_fold]
  simp [List.any_eq_true]

theorem getTouchedColors_snd (g : Grid) (q r : Int) :
    (getTouchedColors g q r).2 = true ↔ hasBlackNbr g q r := by
  unfold getTouchedColors hasBlackNbr
  rw [touch_fold]
  simp [List.any_eq_true]

theorem FrontInv_insert_boundary {g : Grid}
    {acc : List Int × List Int × List Int × List Int} {nk : Int}
    (hI : FrontInv g acc) (hnew : nk ∉ acc.2.2.2)
    (hunset : mapHas g nk = false)
    (hrange : ∃ q r, inRange q r ∧ nk = numKey q r)
    (hw : touchW g nk) (hb : touchB g nk) :
    FrontInv g (acc.1 ++ [nk], acc.2.1, acc.2.2.1, nk :: acc.2.2.2) := by
  obtain ⟨i1, i2, i3, i4, n1, n2, n3, n4⟩ := hI
  refine ⟨?_, ?_, ?_, ?_, List.Nodup.cons hnew n1, ?_, n3, n4⟩
  · intro k hk
    rcases List.mem_cons.mp hk with hk1 | hk1
    · subst hk1
      exact ⟨hunset, hrange⟩
    · exact i1 k hk1
  · intro k
    by_cases hk : k = nk
    · subst hk
      constructor
      · intro _
        exact ⟨List.mem_cons_self _ _, hw, hb⟩
      · intro _
        exact List.mem_append.mpr (Or.inr (List.mem_singleton.mpr rfl))
    · rw [List.mem_append, List.mem_singleton, List.mem_cons]
      have hiff := i2 k
      tauto
  · intro k
    by_cases hk : k = nk
    · subst hk
      constructor
      · intro hmem
        exact absurd (((i3 k).mp hmem).1) hnew
      · intro hmem
        exact absurd hb hmem.2.2
    · rw [List.mem_cons]
      have hiff := i3 k
      tauto
  · intro k
    by_cases hk : k = nk
    · subst hk
      constructor
      · intro hmem
        exact absurd (((i4 k).mp hmem).1) hnew
      · intro hmem
        exact absurd hw hmem.2.1
    · rw [List.mem_cons]
      have hiff := i4 k
      tauto
  · rw [List.nodup_append]
    refine ⟨n2, List.nodup_singleton _, ?_⟩
    intro a ha hb2
    rw [List.mem_singleton] at hb2
    subst hb2
    exact hnew ((i2 a).mp ha).1

theorem FrontInv_insert_white {g : Grid}
    {acc : List Int × List Int × List Int × List Int} {nk : Int}
    (hI : FrontInv g acc) (hnew : nk ∉ acc.2.2.2)
    (hunset : mapHas g nk = false)
    (hrange : ∃ q r, inRange q r ∧ nk = numKey q r)
    (hw : touchW g nk) (hb : ¬touchB g nk) :
    FrontInv g (acc.1, acc.2.1 ++ [nk], acc.2.2.1, nk :: acc.2.2.2) := by
  obtain ⟨i1, i2, i3, i4, n1, n2, n3, n4⟩ := hI
  refine ⟨?_, ?_, ?_, ?_, List.Nodup.cons hnew n1, n2, ?_, n4⟩
  · intro k hk
    rcases List.mem_cons.mp hk with hk1 | hk1
    · subst hk1
      exact ⟨hunset, hrange⟩
    · exact i1 k hk1
  · intro k
    by_cases hk : k = nk
    · subst hk
      constructor
      · intro hmem
        exact absurd (((i2 k).mp hmem).1) hnew
      · intro hmem
        exact absurd hmem.2.2 hb
    · rw [List.mem_cons]
      have hiff := i2 k
      tauto
  · intro k
    by_cases hk : k = nk
    · subst hk
      constructor
      · intro _
        exact ⟨List.mem_cons_self _ _, hw, hb⟩
      · intro _
        exact List.mem_append.mpr (Or.inr (List.mem_singleton.mpr rfl))
    · rw [List.mem_append, List.mem_singleton, List.mem_cons]
      have hiff := i3 k
      tauto
  · intro k
    by_cases hk : k = nk
    · subst hk
      constructor
      · intro hmem
        exact absurd (((i4 k).mp hmem).1) hnew
      · intro hmem
        exact absurd hw hmem.2.1
    · rw [List.mem_cons]
      have hiff := i4 k
      tauto
  · rw [List.nodup_append]
    refine ⟨n3, List.nodup_singleton _, ?_⟩
    intro a ha hb2
    rw [List.mem_singleton] at hb2
    subst hb2
    exact hnew ((i3 a).mp ha).1

theorem FrontInv_insert_black {g : Grid}
    {acc : List Int × List Int × List Int × List Int} {nk : Int}
    (hI : FrontInv g acc) (hnew : nk ∉ acc.2.2.2)
    (hunset : mapHas g nk = false)
    (hrange : ∃ q r, inRange q r ∧ nk = numKey q r)
    (hw : ¬touchW g nk) (hb : touchB g nk) :
    FrontInv g (acc.1, acc.2.1, acc.2.2.1 ++ [nk], nk :: acc.2.2.2) := by
  obtain ⟨i1, i2, i3, i4, n1, n2, n3, n4⟩ := hI
  refine ⟨?_, ?_, ?_, ?_, List.Nodup.cons hnew n1, n2, n3, ?_⟩
  · intro k hk
    rcases List.mem_cons.mp hk with hk1 | hk1
    · subst hk1
      exact ⟨hunset, hrange⟩
    · exact i1 k hk1
  · intro k
    by_cases hk : k = nk
    · subst hk
      constructor
      · intro hmem
        exact absurd (((i2 k).mp hmem).1) hnew
      · intro hmem
        exact absurd hmem.2.1 hw
    · rw [List.mem_cons]
      have hiff := i2 k
      tauto
  · intro k
    by_cases hk : k = nk
    · subst hk
      constructor
      · intro hmem
        exact absurd (((i3 k).mp hmem).1) hnew
      · intro hmem
        exact absurd hmem.2.1 hw
    · rw [List.mem_cons]
      have hiff := i3 k
      tauto
  · intro k
    by_cases hk : k = nk
    · subst hk
      constructor
      · intro _
        exact ⟨List.mem_cons_self _ _, hw, hb⟩
      · intro _
        exact List.mem_append.mpr (Or.inr (List.mem_singleton.mpr rfl))
    · rw [List.mem_append, List.mem_singleton, List.mem_cons]
      have hiff := i4 k
      tauto
  · rw [List.nodup_append]
    refine ⟨n4, List.nodup_singleton _, ?_⟩
    intro a ha hb2
    rw [List.mem_singleton] at hb2
    subst hb2
    exact hnew ((i4 a).mp ha).1

theorem FrontInv_insert_none {g : Grid}
    {acc : List Int × List Int × List Int × List Int} {nk : Int}
    (hI : FrontInv g acc) (hnew : nk ∉ acc.2.2.2)
    (hunset : mapHas g nk = false)
    (hrange : ∃ q r, inRange q r ∧ nk = numKey q r)
    (hw : ¬touchW g nk) (hb : ¬touchB g nk) :
    FrontInv g (acc.1, acc.2.1, acc.2.2.1, nk :: acc.2.2.2) := by
  obtain ⟨i1, i2, i3, i4, n1, n2, n3, n4⟩ := hI
  refine ⟨?_, ?_, ?_, ?_, List.Nodup.cons hnew n1, n2, n3, n4⟩
  · intro k hk
    rcases List.mem_cons.mp hk with hk1 | hk1
    · subst hk1
      exact ⟨hunset, hrange⟩
    · exact i1 k hk1
  · intro k
    by_cases hk : k = nk
    · subst hk
      constructor
      · intro hmem
        exact absurd (((i2 k).mp hmem).1) hnew
      · intro hmem
        exact absurd hmem.2.1 hw
    · rw [List.mem_cons]
      have hiff := i2 k
      tauto
  · intro k
    by_cases hk : k = nk
    · subst hk
      constructor
      · intro hmem
        exact absurd (((i3 k).mp hmem).1) hnew
      · intro hmem
        exact absurd hmem.2.1 hw
    · rw [List.mem_cons]
      have hiff := i3 k
      tauto
  · intro k
    by_cases hk : k = nk
    · subst hk
      constructor
      · intro hmem
        exact absurd (((i4 k).mp hmem).1) hnew
      · intro hmem
        exact absurd hmem.2.2 hb
    · rw [List.mem_cons]
      have hiff := i4 k
      tauto

theorem frontiersStep_inv {g : Grid} {q r : Int} (hs : inSafe q r)
    {acc : List Int × List Int × List Int × List Int}
    (hI : FrontInv g acc) {d : Int × Int} (hd : d ∈ NEIGHBOR_OFFSETS) :
    FrontInv g (frontiersStep g q r acc d) ∧
    (∀ k ∈ acc.2.2.2, k ∈ (frontiersStep g q r acc d).2.2.2) ∧
    (mapHas g (numKey (q + d.1) (r + d.2)) = false →
      numKey (q + d.1) (r + d.2) ∈ (frontiersStep g q r acc d).2.2.2) := by
  by_cases hskip : (mapHas g (numKey (q + d.1) (r + d.2))
      || acc.2.2.2.contains (numKey (q + d.1) (r + d.2))) = true
  · have hstep : frontiersStep g q r acc d = acc := by
      simp only [frontiersStep]
      rw [if_pos hskip]
    rw [hstep]
    refine ⟨hI, fun k hk => hk, ?_⟩
    intro hhas
    rw [hhas] at hskip
    simpa using hskip
  · have hfresh := hskip
    simp only [Bool.or_eq_true, not_or, Bool.not_eq_true] at hfresh
    obtain ⟨hhas, hcont⟩ := hfresh
    have hnotmem : numKey (q + d.1) (r + d.2) ∉ acc.2.2.2 := by
      intro hmem
      have hc2 : acc.2.2.2.contains (numKey (q + d.1) (r + d.2)) = true := by
        simpa using hmem
      rw [hc2] at hcont
      simp at hcont
    have hrange : inRange (q + d.1) (r + d.2) := inRange_of_inSafe_add hs hd
    have hdec : decodeKey (numKey (q + d.1) (r + d.2)) = (q + d.1, r + d.2) :=
      codec_roundtrip _ _ hrange
    have htw : touchW g (numKey (q + d.1) (r + d.2))
        ↔ (getTouchedColors g (q + d.1) (r + d.2)).1 = true := by
      rw [touchW, hdec]
      exact (getTouchedColors_fst g _ _).symm
    have htb : touchB g (numKey (q + d.1) (r + d.2))
        ↔ (getTouchedColors g (q + d.1) (r + d.2)).2 = true := by
      rw [touchB, hdec]
      exact (getTouchedColors_snd g _ _).symm
    have hrng2 : ∃ q2 r2, inRange q2 r2
        ∧ numKey (q + d.1) (r + d.2) = numKey q2 r2 :=
      ⟨q + d.1, r + d.2, hrange, rfl⟩
    rcases ht1 : (getTouchedColors g (q + d.1) (r + d.2)).1 with - | -
    · rcases ht2 : (getTouchedColors g (q + d.1) (r + d.2)).2 with - | -
      · have hstep : frontiersStep g q r acc d
            = (acc.1, acc.2.1, acc.2.2.1,
               numKey (q + d.1) (r + d.2) :: acc.2.2.2) := by
          simp only [frontiersStep]
          rw [if_neg hskip]
          rw [ht1, ht2]
          rfl
        rw [hstep]
        refine ⟨FrontInv_insert_none hI hnotmem hhas hrng2 ?_ ?_, ?_, ?_⟩
        · rw [htw, ht1]
          simp
        · rw [htb, ht2]
          simp
        · intro k hk
          exact List.mem_cons_of_mem _ hk
        · intro _
          exact List.mem_cons_self _ _
      · have hstep : frontiersStep g q r acc d
            = (acc.1, acc.2.1, acc.2.2.1 ++ [numKey (q + d.1) (r + d.2)],
               numKey (q + d.1) (r + d.2) :: acc.2.2.2) := by
          simp only [frontiersStep]
          rw [if_neg hskip]
          rw [ht1, ht2]
          rfl
        rw [hstep]
        refine ⟨FrontInv_insert_black hI hnotmem hhas hrng2 ?_ ?_, ?_, ?_⟩
        · rw [htw, ht1]
          simp
        · rw [htb]
          exact ht2
        · intro k hk
          exact List.mem_cons_of_mem _ hk
        · intro _
          exact List.mem_cons_self _ _
    · rcases ht2 : (getTouchedColors g (q + d.1) (r + d.2)).2 with - | -
      · have hstep : frontiersStep g q r acc d
            = (acc.1, acc.2.1 ++ [numKey (q + d.1) (r + d.2)], acc.2.2.1,
               numKey (q + d.1) (r + d.2) :: acc.2.2.2) := by
          simp only [frontiersStep]
          rw [if_neg hskip]
          rw [ht1, ht2]
          rfl
        rw [hstep]
        refine ⟨FrontInv_insert_white hI hnotmem hhas hrng2 ?_ ?_, ?_, ?_⟩
        · rw [htw]
          exact ht1
        · rw [htb, ht2]
          simp
        · intro k hk
          exact List.mem_cons_of_mem _ hk
        · intro _
          exact List.mem_cons_self _ _
      · have hstep : frontiersStep g q r acc d
            = (acc.1 ++ [numKey (q + d.1) (r + d.2)], acc.2.1, acc.2.2.1,
               numKey (q + d.1) (r + d.2) :: acc.2.2.2) := by
          simp only [frontiersStep]
          rw [if_neg hskip]
          rw [ht1, ht2]
          rfl
        rw [hstep]
        refine ⟨FrontInv_insert_boundary hI hnotmem hhas hrng2 ?_ ?_, ?_, ?_⟩
        · rw [htw]
          exact ht1
        · rw [htb]
          exact ht2
        · intro k hk
          exact List.mem_cons_of_mem _ hk
        · intro _
          exact List.mem_cons_self _ _

theorem inRange_of_inSafe {q r : Int} (h : inSafe q r) : inRange q r := by
  obtain ⟨h1, h2, h3, h4⟩ := h
  exact ⟨by omega, by omega, by omega, by omega⟩

theorem neg_mem_offsets : ∀ d ∈ NEIGHBOR_OFFSETS,
    ((-d.1, -d.2) : Int × Int) ∈ NEIGHBOR_OFFSETS := by decide

theorem frontiersFold_inv {g : Grid} {q r : Int} (hs : inSafe q r) :
    ∀ (L : List (Int × Int)), (∀ d ∈ L, d ∈ NEIGHBOR_OFFSETS) →
    ∀ acc, FrontInv g acc →
      FrontInv g (L.foldl (frontiersStep g q r) acc) ∧
      (∀ k ∈ acc.2.2.2, k ∈ (L.foldl (frontiersStep g q r) acc).2.2.2) ∧
      (∀ d ∈ L, mapHas g (numKey (q + d.1) (r + d.2)) = false →
        numKey (q + d.1) (r + d.2) ∈ (L.foldl (frontiersStep g q r) acc).2.2.2) := by
  intro L
  induction L with
  | nil =>
      intro _ acc hI
      exact ⟨hI, fun k hk => hk, by simp⟩
  | cons d0 L ih =>
      intro hsub acc hI
      obtain ⟨hI2, hmono, hself⟩ :=
        frontiersStep_inv hs hI (hsub d0 (List.mem_cons_self _ _))
      obtain ⟨hIf, hmonoF, hcovF⟩ :=
        ih (fun d hd => hsub d (List.mem_cons_of_mem _ hd))
          (frontiersStep g q r acc d0) hI2
      rw [List.foldl_cons]
      refine ⟨hIf, ?_, ?_⟩
      · intro k hk
        exact hmonoF k (hmono k hk)
      · intro d hd hhas
        rcases List.mem_cons.mp hd with hd1 | hd1
        · subst hd1
          exact hmonoF _ (hself hhas)
        · exact hcovF d hd1 hhas

theorem getFrontiers_fold_inv (g : Grid) (hwf : wellFormed g) :
    ∀ (L : List (Int × Bool)), (∀ e ∈ L, e ∈ g) →
    ∀ acc, FrontInv g acc →
      FrontInv g (L.foldl (fun acc e =>
        let p := decodeKey e.1
        NEIGHBOR_OFFSETS.foldl (frontiersStep g p.1 p.2) acc) acc) ∧
      (∀ k ∈ acc.2.2.2, k ∈ (L.foldl (fun acc e =>
        let p := decodeKey e.1
        NEIGHBOR_OFFSETS.foldl (frontiersStep g p.1 p.2) acc) acc).2.2.2) ∧
      (∀ e ∈ L, ∀ q r, inSafe q r → e.1 = numKey q r →
        ∀ d ∈ NEIGHBOR_OFFSETS, mapHas g (numKey (q + d.1) (r + d.2)) = false →
          numKey (q + d.1) (r + d.2) ∈ (L.foldl (fun acc e =>
            let p := decodeKey e.1
            NEIGHBOR_OFFSETS.foldl (frontiersStep g p.1 p.2) acc) acc).2.2.2) := by
  intro L
  induction L with
  | nil =>
      intro _ acc hI
      exact ⟨hI, fun k hk => hk, by simp⟩
  | cons e0 L ih =>
      intro hsub acc hI
      obtain ⟨q0, r0, hs0, hk0⟩ := hwf e0 (hsub e0 (List.mem_cons_self _ _))
      have hdec : decodeKey e0.1 = (q0, r0) := by
        rw [hk0]
        exact codec_roundtrip q0 r0 (inRange_of_inSafe hs0)
      obtain ⟨hI2, hmono, hcov⟩ :=
        frontiersFold_inv hs0 NEIGHBOR_OFFSETS (fun d hd => hd) acc hI
      simp only [List.foldl_cons, hdec]
      obtain ⟨hIf, hmonoF, hcovF⟩ :=
        ih (fun e he => hsub e (List.mem_cons_of_mem _ he))
          (NEIGHBOR_OFFSETS.foldl (frontiersStep g q0 r0) acc) hI2
      refine ⟨hIf, ?_, ?_⟩
      · intro k hk
        exact hmonoF k (hmono k hk)
      · intro e he q r hsqr hkqr d hd hhas
        rcases List.mem_cons.mp he with he1 | he1
        · subst he1
          have hkeys : numKey q r = numKey q0 r0 := by
            rw [← hkqr, hk0]
          obtain ⟨hq, hr⟩ :=
            numKey_inj (inRange_of_inSafe hsqr) (inRange_of_inSafe hs0) hkeys
          subst hq
          subst hr
          exact hmonoF _ (hcov d hd hhas)
        · exact hcovF e he1 q r hsqr hkqr d hd hhas

/-- C2: in `getFrontiers`, every unset in-range cell adjacent to at least
one colored cell is classified into boundary exactly when it touches
both colors, into the white-only frontier exactly when it touches only
white, and into the black-only frontier exactly when it touches only
black; the three lists are duplicate-free and pairwise disjoint, so no
cell is double-counted. -/
theorem getFrontiers_partition (g : Grid) (hwf : wellFormed g) :
    (∀ q r, inSafe q r → mapGet g (numKey q r) = none →
      (∃ d ∈ NEIGHBOR_OFFSETS, mapHas g (numKey (q + d.1) (r + d.2)) = true) →
      ((numKey q r ∈ (getFrontiers g).1 ↔
          (hasWhiteNbr g q r ∧ hasBlackNbr g q r)) ∧
       (numKey q r ∈ (getFrontiers g).2.1 ↔
          (hasWhiteNbr g q r ∧ ¬hasBlackNbr g q r)) ∧
       (numKey q r ∈ (getFrontiers g).2.2.1 ↔
          (¬hasWhiteNbr g q r ∧ hasBlackNbr g q r)))) ∧
    (getFrontiers g).1.Nodup ∧ (getFrontiers g).2.1.Nodup ∧
    (getFrontiers g).2.2.1.Nodup ∧
    (∀ k, ¬(k ∈ (getFrontiers g).1 ∧ k ∈ (getFrontiers g).2.1)) ∧
    (∀ k, ¬(k ∈ (getFrontiers g).1 ∧ k ∈ (getFrontiers g).2.2.1)) ∧
    (∀ k, ¬(k ∈ (getFrontiers g).2.1 ∧ k ∈ (getFrontiers g).2.2.1)) := by
  have hinit : FrontInv g (([], [], [], []) :
      List Int × List Int × List Int × List Int) := by
    refine ⟨by simp, ?_, ?_, ?_, List.nodup_nil, List.nodup_nil,
      List.nodup_nil, List.nodup_nil⟩ <;> intro k <;> simp
  obtain ⟨hInv, -, hcover⟩ :=
    getFrontiers_fold_inv g hwf g (fun e he => he) ([], [], [], []) hinit
  obtain ⟨i1, i2, i3, i4, n1, n2, n3, n4⟩ := hInv
  refine ⟨?_, n2, n3, n4, ?_, ?_, ?_⟩
  · intro q r hs hunset hadj
    obtain ⟨d, hd, hhas⟩ := hadj
    have hcol : ∃ col, mapGet g (numKey (q + d.1) (r + d.2)) = some col := by
      rcases hget : mapGet g (numKey (q + d.1) (r + d.2)) with - | col
      · rw [mapHas, hget] at hhas
        simp at hhas
      · exact ⟨col, rfl⟩
    obtain ⟨col, hget⟩ := hcol
    have hmem : (numKey (q + d.1) (r + d.2), col) ∈ g := mapGet_mem hget
    obtain ⟨q2, r2, hs2, hk2⟩ := hwf _ hmem
    obtain ⟨hq2, hr2⟩ :=
      numKey_inj (inRange_of_inSafe_add hs hd) (inRange_of_inSafe hs2) hk2
    have hnegd : ((-d.1, -d.2) : Int × Int) ∈ NEIGHBOR_OFFSETS :=
      neg_mem_offsets d hd
    have hkeyeq : numKey (q2 + (-d.1)) (r2 + (-d.2)) = numKey q r := by
      have e1 : q2 + (-d.1) = q := by omega
      have e2 : r2 + (-d.2) = r := by omega
      rw [e1, e2]
    have hunhas : mapHas g (numKey (q2 + (-d.1)) (r2 + (-d.2))) = false := by
      rw [hkeyeq, mapHas, hunset]
      rfl
    have hseen : numKey q r ∈ (getFrontiers g).2.2.2 := by
      have := hcover (numKey (q + d.1) (r + d.2), col) hmem q2 r2 hs2
        (by rw [hk2]) (-d.1, -d.2) hnegd hunhas
      rw [hkeyeq] at this
      exact this
    have hdecq : decodeKey (numKey q r) = (q, r) :=
      codec_roundtrip q r (inRange_of_inSafe hs)
    have htw : touchW g (numKey q r) ↔ hasWhiteNbr g q r := by
      rw [touchW, hdecq]
    have htb : touchB g (numKey q r) ↔ hasBlackNbr g q r := by
      rw [touchB, hdecq]
    refine ⟨?_, ?_, ?_⟩
    · constructor
      · intro hkB
        obtain ⟨-, hw, hb⟩ := (i2 _).mp hkB
        exact ⟨htw.mp hw, htb.mp hb⟩
      · intro ⟨hw, hb⟩
        exact (i2 _).mpr ⟨hseen, htw.mpr hw, htb.mpr hb⟩
    · constructor
      · intro hkW
        obtain ⟨-, hw, hb⟩ := (i3 _).mp hkW
        exact ⟨htw.mp hw, fun hx => hb (htb.mpr hx)⟩
      · intro ⟨hw, hb⟩
        exact (i3 _).mpr ⟨hseen, htw.mpr hw, fun hx => hb (htb.mp hx)⟩
    · constructor
      · intro hkBl
        obtain ⟨-, hw, hb⟩ := (i4 _).mp hkBl
        exact ⟨fun hx => hw (htw.mpr hx), htb.mp hb⟩
      · intro ⟨hw, hb⟩
        exact (i4 _).mpr ⟨hseen, fun hx => hw (htw.mp hx), htb.mpr hb⟩
  · intro k ⟨hkB, hkW⟩
    exact (((i3 k).mp hkW).2.2) (((i2 k).mp hkB).2.2)
  · intro k ⟨hkB, hkBl⟩
    exact (((i4 k).mp hkBl).2.1) (((i2 k).mp hkB).2.1)
  · intro k ⟨hkW, hkBl⟩
    exact (((i3 k).mp hkW).2.2) (((i4 k).mp hkBl).2.2)

/-- Witness for C2 on the ring grid: the unset cell (2, 0) is adjacent to
the black cell (1, 0) only, so it lands in the black-only frontier and
in neither other set. -/
theorem getFrontiers_partition_witness :
    numKey 2 0 ∈ (getFrontiers ringSt.colors).2.2.1 ∧
    numKey 2 0 ∉ (getFrontiers ringSt.colors).1 ∧
    numKey 2 0 ∉ (getFrontiers ringSt.colors).2.1 := by
  have hwf : wellFormed ringSt.colors := by
    intro e he
    have hcl : ringSt.colors
        = [(numKey 0 0, true), (numKey 1 0, false), (numKey 1 (-1), false),
           (numKey 0 (-1), false), (numKey (-1) 0, false),
           (numKey (-1) 1, false), (numKey 0 1, false)] := by decide
    rw [hcl] at he
    simp only [List.mem_cons, List.not_mem_nil, or_false] at he
    rcases he with h | h | h | h | h | h | h
    · exact ⟨0, 0, by decide, by rw [h]⟩
    · exact ⟨1, 0, by decide, by rw [h]⟩
    · exact ⟨1, -1, by decide, by rw [h]⟩
    · exact ⟨0, -1, by decide, by rw [h]⟩
    · exact ⟨-1, 0, by decide, by rw [h]⟩
    · exact ⟨-1, 1, by decide, by rw [h]⟩
    · exact ⟨0, 1, by decide, by rw [h]⟩
  have h := getFrontiers_partition ringSt.colors hwf
  have hcls := h.1 2 0 (by decide) (by decide)
    ⟨((-1, 0) : Int × Int), by decide, by decide⟩
  obtain ⟨hB, hW, hBl⟩ := hcls
  refine ⟨hBl.mpr ⟨by decide, by decide⟩, ?_, ?_⟩
  · intro hmem
    exact absurd (hB.mp hmem).1 (by decide)
  · intro hmem
    exact absurd (hW.mp hmem).1 (by decide)

theorem keyDist_nonneg (k : Int) : 0 ≤ keyDist k :=
  Int.natCast_nonneg _

theorem lexle_trans {d1 d2 d3 : Int} {a1 a2 a3 : ℝ}
    (h1 : d1 < d2 ∨ (d1 = d2 ∧ a1 ≤ a2))
    (h2 : d2 < d3 ∨ (d2 = d3 ∧ a2 ≤ a3)) :
    d1 < d3 ∨ (d1 = d3 ∧ a1 ≤ a3) := by
  rcases h1 with h1 | ⟨h1d, h1a⟩
  · rcases h2 with h2 | ⟨h2d, -⟩
    · exact Or.inl (lt_trans h1 h2)
    · exact Or.inl (h2d ▸ h1)
  · rcases h2 with h2 | ⟨h2d, h2a⟩
    · exact Or.inl (h1d ▸ h2)
    · exact Or.inr ⟨h1d.trans h2d, le_trans h1a h2a⟩

theorem selectStep_none (k : Int) :
    selectStep (none, -1, -1) k = (some k, keyDist k, keyAngle k) := by
  have h : (-1 : Int) < keyDist k :=
    lt_of_lt_of_le (by norm_num) (keyDist_nonneg k)
  simp only [selectStep]
  rw [if_pos (Or.inl h)]

theorem selectFold_from :
    ∀ (L : List Int) (k0 : Int),
      ∃ k, L.foldl selectStep (some k0, keyDist k0, keyAngle k0)
          = (some k, keyDist k, keyAngle k) ∧
        (k = k0 ∨ k ∈ L) ∧
        (keyDist k0 < keyDist k ∨
          (keyDist k0 = keyDist k ∧ keyAngle k0 ≤ keyAngle k)) ∧
        (∀ j ∈ L, keyDist j < keyDist k ∨
          (keyDist j = keyDist k ∧ keyAngle j ≤ keyAngle k)) := by
  intro L
  induction L with
  | nil =>
      intro k0
      exact ⟨k0, rfl, Or.inl rfl, Or.inr ⟨rfl, le_refl _⟩, by simp⟩
  | cons j0 L ih =>
      intro k0
      rw [List.foldl_cons]
      by_cases hcond : (some k0, keyDist k0, keyAngle k0).2.1 < keyDist j0 ∨
          (keyDist j0 = (some k0, keyDist k0, keyAngle k0).2.1 ∧
            (some k0, keyDist k0, keyAngle k0).2.2 < keyAngle j0)
      · have hstep : selectStep (some k0, keyDist k0, keyAngle k0) j0
            = (some j0, keyDist j0, keyAngle j0) := by
          simp only [selectStep]
          rw [if_pos hcond]
        rw [hstep]
        obtain ⟨k, hfold, hmem, hdom0, hdomL⟩ := ih j0
        have hk0j0 : keyDist k0 < keyDist j0 ∨
            (keyDist k0 = keyDist j0 ∧ keyAngle k0 ≤ keyAngle j0) := by
          rcases hcond with h | ⟨hden, hang⟩
          · exact Or.inl h
          · exact Or.inr ⟨hden.symm, le_of_lt hang⟩
        refine ⟨k, hfold, ?_, lexle_trans hk0j0 hdom0, ?_⟩
        · rcases hmem with h | h
          · exact Or.inr (h ▸ List.mem_cons_self _ _)
          · exact Or.inr (List.mem_cons_of_mem _ h)
        · intro j hj
          rcases List.mem_cons.mp hj with hj1 | hj1
          · subst hj1
            exact hdom0
          · exact hdomL j hj1
      · have hstep : selectStep (some k0, keyDist k0, keyAngle k0) j0
            = (some k0, keyDist k0, keyAngle k0) := by
          simp only [selectStep]
          rw [if_neg hcond]
        rw [hstep]
        obtain ⟨k, hfold, hmem, hdom0, hdomL⟩ := ih k0
        have hj0k0 : keyDist j0 < keyDist k0 ∨
            (keyDist j0 = keyDist k0 ∧ keyAngle j0 ≤ keyAngle k0) := by
          simp only [not_or, not_and, not_lt] at hcond
          obtain ⟨hd, ha⟩ := hcond
          rcases lt_or_eq_of_le hd with h | h
          · exact Or.inl h
          · exact Or.inr ⟨h, ha h⟩
        refine ⟨k, hfold, ?_, hdom0, ?_⟩
        · rcases hmem with h | h
          · exact Or.inl h
          · exact Or.inr (List.mem_cons_of_mem _ h)
        · intro j hj
          rcases List.mem_cons.mp hj with hj1 | hj1
          · subst hj1
            exact lexle_trans hj0k0 hdom0
          · exact hdomL j hj1

/-- C5: (1) for every nonempty frontier, `selectNextFrontierHex` returns
a member whose (hex distance from the grid origin, clockwise angle from
due east) is lexicographically maximal: every other member is either
strictly closer in, or equally far with a clockwise angle that is no
greater; (2) scenario: of two frontier cells at equal hex distance, the
one with strictly greater clockwise angle is selected. -/
theorem selectNextFrontierHex_spec :
    (∀ (k0 : Int) (rest : List Int),
      ∃ k, selectNextFrontierHex (k0 :: rest) = some k ∧
        (k = k0 ∨ k ∈ rest) ∧
        (∀ j ∈ k0 :: rest, keyDist j < keyDist k ∨
          (keyDist j = keyDist k ∧ keyAngle j ≤ keyAngle k))) ∧
    (∀ k1 k2 : Int, keyDist k1 = keyDist k2 → keyAngle k1 < keyAngle k2 →
      selectNextFrontierHex [k1, k2] = some k2) := by
  constructor
  · intro k0 rest
    obtain ⟨k, hfold, hmem, hdom0, hdomL⟩ := selectFold_from rest k0
    refine ⟨k, ?_, hmem, ?_⟩
    · simp only [selectNextFrontierHex, List.foldl_cons, selectStep_none]
      rw [hfold]
    · intro j hj
      rcases List.mem_cons.mp hj with hj1 | hj1
      · subst hj1
        exact hdom0
      · exact hdomL j hj1
  · intro k1 k2 hd ha
    simp only [selectNextFrontierHex, List.foldl_cons, selectStep_none,
      List.foldl_nil]
    have hcond : (some k1, keyDist k1, keyAngle k1).2.1 < keyDist k2 ∨
        (keyDist k2 = (some k1, keyDist k1, keyAngle k1).2.1 ∧
          (some k1, keyDist k1, keyAngle k1).2.2 < keyAngle k2) :=
      Or.inr ⟨hd.symm, ha⟩
    have hstep : selectStep (some k1, keyDist k1, keyAngle k1) k2
        = (some k2, keyDist k2, keyAngle k2) := by
      simp only [selectStep]
      rw [if_pos hcond]
    rw [hstep]

theorem clockwiseAngle_east : clockwiseAngle 1 0 = 0 := by
  have hx : ((1 : Int) : ℝ) + ((0 : Int) : ℝ) / 2 = 1 := by norm_num
  have hy : ((0 : Int) : ℝ) * Real.sqrt 3 / 2 = 0 := by norm_num
  simp only [clockwiseAngle, hx, hy]
  have hone : (⟨1, 0⟩ : ℂ) = 1 := Complex.ext rfl rfl
  rw [hone, Complex.arg_one]
  have hpi : Real.pi ≠ 0 := Real.pi_ne_zero
  have hdiv : (2 * Real.pi - 0 + 2 * Real.pi) / (2 * Real.pi) = 2 := by
    field_simp
    ring
  simp only [jsMod, hdiv]
  have hfl : (Int.floor ((2 : ℝ)) : Int) = 2 := by norm_num
  rw [hfl]
  push_cast
  ring

theorem clockwiseAngle_west : clockwiseAngle (-1) 0 = Real.pi := by
  have hx : ((-1 : Int) : ℝ) + ((0 : Int) : ℝ) / 2 = -1 := by norm_num
  have hy : ((0 : Int) : ℝ) * Real.sqrt 3 / 2 = 0 := by norm_num
  simp only [clockwiseAngle, hx, hy]
  have hone : (⟨-1, 0⟩ : ℂ) = -1 := by
    apply Complex.ext <;> simp
  rw [hone, Complex.arg_neg_one]
  have hpi : Real.pi ≠ 0 := Real.pi_ne_zero
  have hdiv : (2 * Real.pi - Real.pi + 2 * Real.pi) / (2 * Real.pi) = 3 / 2 := by
    field_simp
    ring
  simp only [jsMod, hdiv]
  have hfl : (Int.floor ((3 / 2 : ℝ)) : Int) = 1 := by
    rw [Int.floor_eq_iff]
    norm_num
  rw [hfl]
  push_cast
  ring

/-- Witness for C5: the boundary cells (1, 0) and (-1, 0) are both at hex
distance 1; (-1, 0) has clockwise angle π versus 0 for (1, 0), so it is
selected. -/
theorem selectNextFrontierHex_spec_witness :
    keyDist (numKey 1 0) = keyDist (numKey (-1) 0) ∧
    keyAngle (numKey 1 0) < keyAngle (numKey (-1) 0) ∧
    selectNextFrontierHex [numKey 1 0, numKey (-1) 0]
      = some (numKey (-1) 0) := by
  have hdec1 : decodeKey (numKey 1 0) = (1, 0) := by decide
  have hdec2 : decodeKey (numKey (-1) 0) = (-1, 0) := by decide
  have ha1 : keyAngle (numKey 1 0) = 0 := by
    rw [keyAngle, hdec1]
    exact clockwiseAngle_east
  have ha2 : keyAngle (numKey (-1) 0) = Real.pi := by
    rw [keyAngle, hdec2]
    exact clockwiseAngle_west
  have hd : keyDist (numKey 1 0) = keyDist (numKey (-1) 0) := by
    rw [keyDist, keyDist, hdec1, hdec2]
    decide
  have ha : keyAngle (numKey 1 0) < keyAngle (numKey (-1) 0) := by
    rw [ha1, ha2]
    exact Real.pi_pos
  exact ⟨hd, ha, selectNextFrontierHex_spec.2 _ _ hd ha⟩

theorem numKey_add (q r a b : Int) :
    numKey (q + a) (r + b) = numKey q r + a * 100000 + b := by
  unfold numKey
  ring

theorem preach_unset {g : Grid} {s p : Int × Int} (h : PReach g s p) :
    mapGet g (numKey p.1 p.2) = none := by
  induction h with
  | refl h0 => exact h0
  | step p0 d hre hd hun ih => exact hun

theorem preach_closed_start {g : Grid} {s : Int × Int} {m : List (Int × Int)}
    (hcl : ∀ p ∈ m, ∀ d ∈ NEIGHBOR_OFFSETS,
        mapGet g (numKey (p.1 + d.1) (p.2 + d.2)) = none →
        ∃ p2 ∈ m, numKey p2.1 p2.2 = numKey (p.1 + d.1) (p.2 + d.2)) :
    ∀ p : Int × Int, PReach g s p →
      (∃ p2 ∈ m, numKey p2.1 p2.2 = numKey p.1 p.2) →
      ∃ p2 ∈ m, numKey p2.1 p2.2 = numKey s.1 s.2 := by
  intro p hre
  induction hre with
  | refl h0 =>
      intro h
      exact h
  | step p0 d hre0 hd hun ih =>
      intro h
      obtain ⟨p2, hp2m, hp2k⟩ := h
      have hnegd : ((-d.1, -d.2) : Int × Int) ∈ NEIGHBOR_OFFSETS :=
        neg_mem_offsets d hd
      have hkey : numKey (p2.1 + -d.1) (p2.2 + -d.2) = numKey p0.1 p0.2 := by
        rw [numKey_add, hp2k]
        have : numKey (p0.1 + d.1) (p0.2 + d.2)
            = numKey p0.1 p0.2 + d.1 * 100000 + d.2 := numKey_add _ _ _ _
        rw [this]
        ring
      have hget : mapGet g (numKey (p2.1 + -d.1) (p2.2 + -d.2)) = none := by
        rw [hkey]
        exact preach_unset hre0
      obtain ⟨p3, hp3m, hp3k⟩ := hcl p2 hp2m (-d.1, -d.2) hnegd hget
      refine ih ⟨p3, hp3m, ?_⟩
      rw [hp3k, hkey]

theorem candidateStep_fold (g : Grid) (q r : Int) :
    ∀ (L : List (Int × Int)) (acc : List Int),
      ∃ new : List Int,
        L.foldl (candidateStep g q r) acc = acc ++ new ∧
        ∀ k ∈ new, mapHas g k = false ∧
          ∃ d ∈ L, k = numKey (q + d.1) (r + d.2) := by
  intro L
  induction L with
  | nil =>
      intro acc
      exact ⟨[], by simp, by simp⟩
  | cons d0 L ih =>
      intro acc
      rw [List.foldl_cons]
      by_cases hc : (mapHas g (numKey (q + d0.1) (r + d0.2))
          || acc.contains (numKey (q + d0.1) (r + d0.2))) = true
      · have hstep : candidateStep g q r acc d0 = acc := by
          simp only [candidateStep]
          rw [if_pos hc]
        rw [hstep]
        obtain ⟨new, h1, h2⟩ := ih acc
        refine ⟨new, h1, ?_⟩
        intro k hk
        obtain ⟨ha, d, hd, he⟩ := h2 k hk
        exact ⟨ha, d, List.mem_cons_of_mem _ hd, he⟩
      · have hstep : candidateStep g q r acc d0
            = acc ++ [numKey (q + d0.1) (r + d0.2)] := by
          simp only [candidateStep]
          rw [if_neg hc]
        rw [hstep]
        obtain ⟨new, h1, h2⟩ := ih (acc ++ [numKey (q + d0.1) (r + d0.2)])
        refine ⟨numKey (q + d0.1) (r + d0.2) :: new, by rw [h1]; simp, ?_⟩
        have hnothas : mapHas g (numKey (q + d0.1) (r + d0.2)) = false := by
          simp only [Bool.or_eq_true, not_or, Bool.not_eq_true] at hc
          exact hc.1
        intro k hk
        rcases List.mem_cons.mp hk with hk1 | hk1
        · subst hk1
          exact ⟨hnothas, d0, List.mem_cons_self _ _, rfl⟩
        · obtain ⟨ha, d, hd, he⟩ := h2 k hk1
          exact ⟨ha, d, List.mem_cons_of_mem _ hd, he⟩

theorem collectCandidates_spec (g : Grid) (hwf : wellFormed g) :
    ∀ k ∈ collectCandidates g,
      mapHas g k = false ∧ ∃ q r, inRange q r ∧ k = numKey q r := by
  suffices hgen : ∀ (L : List (Int × Bool)), (∀ e ∈ L, e ∈ g) →
      ∀ acc : List Int,
        (∀ k ∈ acc, mapHas g k = false ∧ ∃ q r, inRange q r ∧ k = numKey q r) →
        ∀ k ∈ L.foldl (fun acc e =>
            if e.2 then acc
            else
              let p := decodeKey e.1
              NEIGHBOR_OFFSETS.foldl (candidateStep g p.1 p.2) acc) acc,
          mapHas g k = false ∧ ∃ q r, inRange q r ∧ k = numKey q r by
    exact hgen g (fun e he => he) [] (by simp)
  intro L
  induction L with
  | nil =>
      intro _ acc hacc
      simpa using hacc
  | cons e0 L ih =>
      intro hsub acc hacc
      rw [List.foldl_cons]
      by_cases hw : e0.2
      · rw [if_pos hw]
        exact ih (fun e he => hsub e (List.mem_cons_of_mem _ he)) acc hacc
      · rw [if_neg hw]
        obtain ⟨q0, r0, hs0, hk0⟩ := hwf e0 (hsub e0 (List.mem_cons_self _ _))
        have hdec : decodeKey e0.1 = (q0, r0) := by
          rw [hk0]
          exact codec_roundtrip q0 r0 (inRange_of_inSafe hs0)
        refine ih (fun e he => hsub e (List.mem_cons_of_mem _ he)) _ ?_
        show ∀ k ∈ (let p := decodeKey e0.1
            NEIGHBOR_OFFSETS.foldl (candidateStep g p.1 p.2) acc), _
        rw [hdec]
        obtain ⟨new, h1, h2⟩ := candidateStep_fold g q0 r0 NEIGHBOR_OFFSETS acc
        rw [h1]
        intro k hk
        rcases List.mem_append.mp hk with hk1 | hk1
        · exact hacc k hk1
        · obtain ⟨hhas, d, hd, he⟩ := h2 k hk1
          exact ⟨hhas, q0 + d.1, r0 + d.2, inRange_of_inSafe_add hs0 hd, he⟩

theorem pocketStep_fold (g : Grid) (q r : Int) :
    ∀ (L : List (Int × Int)) (acc : List Int × List (Int × Int) × Bool),
      (∀ k ∈ acc.1, k ∈ (L.foldl (pocketStep g q r) acc).1) ∧
      (∀ k ∈ (L.foldl (pocketStep g q r) acc).1,
          k ∈ acc.1 ∨ ∃ d ∈ L, k = numKey (q + d.1) (r + d.2)) ∧
      (∀ d ∈ L, numKey (q + d.1) (r + d.2) ∈ (L.foldl (pocketStep g q r) acc).1) ∧
      (acc.2.2 = true → (L.foldl (pocketStep g q r) acc).2.2 = true) ∧
      ((∀ k ∈ acc.1, mapGet g k ≠ some true) →
          (L.foldl (pocketStep g q r) acc).2.2 = false →
          ∀ k ∈ (L.foldl (pocketStep g q r) acc).1, mapGet g k ≠ some true) ∧
      (∃ newQ, (L.foldl (pocketStep g q r) acc).2.1 = acc.2.1 ++ newQ ∧
        ∀ p ∈ newQ, (∃ d ∈ L, p = (q + d.1, r + d.2)) ∧
          mapGet g (numKey p.1 p.2) = none ∧
          numKey p.1 p.2 ∈ (L.foldl (pocketStep g q r) acc).1) ∧
      (∀ k ∈ (L.foldl (pocketStep g q r) acc).1, mapGet g k = none →
          k ∈ acc.1 ∨ ∃ p ∈ (L.foldl (pocketStep g q r) acc).2.1,
            numKey p.1 p.2 = k) := by
  intro L
  induction L with
  | nil =>
      intro acc
      refine ⟨fun k hk => hk, fun k hk => Or.inl hk, by simp, fun h => h,
        fun h _ => h, ⟨[], by simp, by simp⟩, fun k hk _ => Or.inl hk⟩
  | cons d0 L ih =>
      intro acc
      rw [List.foldl_cons]
      by_cases hc : numKey (q + d0.1) (r + d0.2) ∈ acc.1
      · have hstep : pocketStep g q r acc d0 = acc := by
          have hcb : acc.1.contains (numKey (q + d0.1) (r + d0.2)) = true := by
            simpa using hc
          simp only [pocketStep]
          rw [if_pos hcb]
        rw [hstep]
        obtain ⟨m1, m2, m3, m4, m5, ⟨newQ, hq1, hq2⟩, m7⟩ := ih acc
        refine ⟨m1, ?_, ?_, m4, m5, ⟨newQ, hq1, ?_⟩, m7⟩
        · intro k hk
          rcases m2 k hk with h | ⟨d, hd, he⟩
          · exact Or.inl h
          · exact Or.inr ⟨d, List.mem_cons_of_mem _ hd, he⟩
        · intro d hd
          rcases List.mem_cons.mp hd with hd1 | hd1
          · subst hd1
            exact m1 _ hc
          · exact m3 d hd1
        · intro p hp
          obtain ⟨⟨d, hd, he⟩, hget, hmem⟩ := hq2 p hp
          exact ⟨⟨d, List.mem_cons_of_mem _ hd, he⟩, hget, hmem⟩
      · have hcb : acc.1.contains (numKey (q + d0.1) (r + d0.2)) = false := by
          rcases hb : acc.1.contains (numKey (q + d0.1) (r + d0.2)) with - | -
          · rfl
          · exact absurd (by simpa using hb) hc
        rcases hget : mapGet g (numKey (q + d0.1) (r + d0.2)) with - | c
        · -- unset neighbour: visit and enqueue
          have hstep : pocketStep g q r acc d0
              = (numKey (q + d0.1) (r + d0.2) :: acc.1,
                 acc.2.1 ++ [(q + d0.1, r + d0.2)], acc.2.2) := by
            simp only [pocketStep]
            rw [if_neg (by simpa using hc), hget]
          rw [hstep]
          obtain ⟨m1, m2, m3, m4, m5, ⟨newQ, hq1, hq2⟩, m7⟩ :=
            ih (numKey (q + d0.1) (r + d0.2) :: acc.1,
                acc.2.1 ++ [(q + d0.1, r + d0.2)], acc.2.2)
          refine ⟨?_, ?_, ?_, m4, ?_, ?_, ?_⟩
          · intro k hk
            exact m1 k (List.mem_cons_of_mem _ hk)
          · intro k hk
            rcases m2 k hk with h | ⟨d, hd, he⟩
            · rcases List.mem_cons.mp h with h1 | h1
              · exact Or.inr ⟨d0, List.mem_cons_self _ _, h1⟩
              · exact Or.inl h1
            · exact Or.inr ⟨d, List.mem_cons_of_mem _ hd, he⟩
          · intro d hd
            rcases List.mem_cons.mp hd with hd1 | hd1
            · subst hd1
              exact m1 _ (List.mem_cons_self _ _)
            · exact m3 d hd1
          · intro hpre hfalse k hk
            refine m5 ?_ hfalse k hk
            intro k2 hk2
            rcases List.mem_cons.mp hk2 with h1 | h1
            · subst h1
              rw [hget]
              simp
            · exact hpre k2 h1
          · refine ⟨(q + d0.1, r + d0.2) :: newQ, by rw [hq1]; simp, ?_⟩
            intro p hp
            rcases List.mem_cons.mp hp with h1 | h1
            · subst h1
              exact ⟨⟨d0, List.mem_cons_self _ _, rfl⟩, hget,
                m1 _ (List.mem_cons_self _ _)⟩
            · obtain ⟨⟨d, hd, he⟩, hg2, hmem⟩ := hq2 p h1
              exact ⟨⟨d, List.mem_cons_of_mem _ hd, he⟩, hg2, hmem⟩
          · intro k hk hkget
            rcases m7 k hk hkget with h | h
            · rcases List.mem_cons.mp h with h1 | h1
              · subst h1
                refine Or.inr ⟨(q + d0.1, r + d0.2), ?_, rfl⟩
                rw [hq1]
                simp
              · exact Or.inl h1
            · exact Or.inr h
        · -- colored neighbour: visit and accumulate touchesWhite
          have hstep : pocketStep g q r acc d0
              = (numKey (q + d0.1) (r + d0.2) :: acc.1,
                 acc.2.1, acc.2.2 || c) := by
            simp only [pocketStep]
            rw [if_neg (by simpa using hc), hget]
          rw [hstep]
          obtain ⟨m1, m2, m3, m4, m5, ⟨newQ, hq1, hq2⟩, m7⟩ :=
            ih (numKey (q + d0.1) (r + d0.2) :: acc.1, acc.2.1, acc.2.2 || c)
          refine ⟨?_, ?_, ?_, ?_, ?_, ?_, ?_⟩
          · intro k hk
            exact m1 k (List.mem_cons_of_mem _ hk)
          · intro k hk
            rcases m2 k hk with h | ⟨d, hd, he⟩
            · rcases List.mem_cons.mp h with h1 | h1
              · exact Or.inr ⟨d0, List.mem_cons_self _ _, h1⟩
              · exact Or.inl h1
            · exact Or.inr ⟨d, List.mem_cons_of_mem _ hd, he⟩
          · intro d hd
            rcases List.mem_cons.mp hd with hd1 | hd1
            · subst hd1
              exact m1 _ (List.mem_cons_self _ _)
            · exact m3 d hd1
          · intro htw
            exact m4 (by rw [htw]; simp)
          · intro hpre hfalse k hk
            rcases hcval : c with - | -
            · refine m5 ?_ hfalse k hk
              intro k2 hk2
              rcases List.mem_cons.mp hk2 with h1 | h1
              · subst h1
                rw [hget, hcval]
                simp
              · exact hpre k2 h1
            · exfalso
              have : (L.foldl (pocketStep g q r)
                  (numKey (q + d0.1) (r + d0.2) :: acc.1,
                   acc.2.1, acc.2.2 || c)).2.2 = true := by
                refine m4 ?_
                rw [hcval]
                simp
              rw [this] at hfalse
              simp at hfalse
          · refine ⟨newQ, hq1, ?_⟩
            intro p hp
            obtain ⟨⟨d, hd, he⟩, hg2, hmem⟩ := hq2 p hp
            exact ⟨⟨d, List.mem_cons_of_mem _ hd, he⟩, hg2, hmem⟩
          · intro k hk hkget
            rcases m7 k hk hkget with h | h
            · rcases List.mem_cons.mp h with h1 | h1
              · subst h1
                rw [hget] at hkget
                simp at hkget
              · exact Or.inl h1
            · exact Or.inr h

theorem pocketFill_spec (g : Grid) (s : Int × Int) :
    ∀ (fuel : Nat) (visited : List Int) (queue : List (Int × Int)) (size : Nat)
      (tw : Bool) (checked : List Int) (members : List (Int × Int))
      (res : Nat × Bool × List Int × List (Int × Int)),
      pocketFill g fuel visited queue size tw checked members = res →
      10000 < fuel + size →
      (tw = false → ∀ k ∈ visited, mapGet g k ≠ some true) →
      (∀ p ∈ queue, PReach g s p) →
      (∀ p ∈ members, PReach g s p) →
      (∀ p ∈ queue, numKey p.1 p.2 ∈ visited) →
      (∀ k ∈ visited, mapGet g k = none →
          (∃ p ∈ queue, numKey p.1 p.2 = k) ∨
          (∃ p ∈ members, numKey p.1 p.2 = k)) →
      (∀ p ∈ members, ∀ d ∈ NEIGHBOR_OFFSETS,
          numKey (p.1 + d.1) (p.2 + d.2) ∈ visited) →
      (∀ p ∈ members, numKey p.1 p.2 ∈ checked) →
      (res.2.2.2.length + size = res.1 + members.length) ∧
      (∃ newm, res.2.2.2 = members ++ newm ∧ ∀ p ∈ newm, PReach g s p) ∧
      (∃ newc, res.2.2.1 = checked ++ newc) ∧
      (∀ p ∈ res.2.2.2, numKey p.1 p.2 ∈ res.2.2.1) ∧
      (res.2.1 = false → res.1 ≤ 10000 →
          ∀ p ∈ res.2.2.2, ∀ d ∈ NEIGHBOR_OFFSETS,
            mapGet g (numKey (p.1 + d.1) (p.2 + d.2)) ≠ some true) ∧
      (res.1 ≤ 10000 →
          ∀ p ∈ res.2.2.2, ∀ d ∈ NEIGHBOR_OFFSETS,
            mapGet g (numKey (p.1 + d.1) (p.2 + d.2)) = none →
            ∃ p2 ∈ res.2.2.2,
              numKey p2.1 p2.2 = numKey (p.1 + d.1) (p.2 + d.2)) := by
  intro fuel
  induction fuel with
  | zero =>
      intro visited queue size tw checked members res hres hfuel hA hCq hCm hQV hE hB hF
      match queue with
      | [] =>
          have hres2 : res = (size, tw, checked, members) := hres.symm
          subst hres2
          refine ⟨(by omega : members.length + size = size + members.length),
            ⟨[], by simp, by simp⟩, ⟨[], by simp⟩, hF, ?_, ?_⟩
          · intro htw _ p hp d hd
            exact hA htw _ (hB p hp d hd)
          · intro _ p hp d hd hget
            rcases hE _ (hB p hp d hd) hget with ⟨p2, hp2, hk⟩ | ⟨p2, hp2, hk⟩
            · exact absurd hp2 (List.not_mem_nil _)
            · exact ⟨p2, hp2, hk⟩
      | (q, r) :: rest =>
          have hres2 : res = (size, tw, checked, members) := hres.symm
          subst hres2
          refine ⟨(by omega : members.length + size = size + members.length),
            ⟨[], by simp, by simp⟩, ⟨[], by simp⟩, hF, ?_, ?_⟩
          · intro _ hle
            omega
          · intro hle
            omega
  | succ fuel ih =>
      intro visited queue size tw checked members res hres hfuel hA hCq hCm hQV hE hB hF
      match queue with
      | [] =>
          have hres2 : res = (size, tw, checked, members) := hres.symm
          subst hres2
          refine ⟨(by omega : members.length + size = size + members.length),
            ⟨[], by simp, by simp⟩, ⟨[], by simp⟩, hF, ?_, ?_⟩
          · intro htw _ p hp d hd
            exact hA htw _ (hB p hp d hd)
          · intro _ p hp d hd hget
            rcases hE _ (hB p hp d hd) hget with ⟨p2, hp2, hk⟩ | ⟨p2, hp2, hk⟩
            · exact absurd hp2 (List.not_mem_nil _)
            · exact ⟨p2, hp2, hk⟩
      | (q, r) :: rest =>
          have hre : PReach g s (q, r) := hCq _ (List.mem_cons_self _ _)
          by_cases hbr : 10000 < size + 1
          · have hres2 : res
                = (size + 1, tw, checked ++ [numKey q r], members ++ [(q, r)]) := by
              rw [← hres]
              simp only [pocketFill]
              rw [if_pos hbr]
            subst hres2
            have hlen : (members ++ [(q, r)]).length + size
                = size + 1 + members.length := by
              rw [List.length_append, List.length_singleton]
              omega
            refine ⟨hlen, ⟨[(q, r)], by simp, ?_⟩, ⟨[numKey q r], by simp⟩,
              ?_, ?_, ?_⟩
            · intro p hp
              rw [List.mem_singleton] at hp
              subst hp
              exact hre
            · intro p hp
              rcases List.mem_append.mp hp with h | h
              · exact List.mem_append.mpr (Or.inl (hF p h))
              · rw [List.mem_singleton] at h
                subst h
                exact List.mem_append.mpr (Or.inr (by simp))
            · intro _ hle
              omega
            · intro hle
              omega
          · obtain ⟨m1, m2, m3, m4, m5, ⟨newQ, hq1, hq2⟩, m7⟩ :=
              pocketStep_fold g q r NEIGHBOR_OFFSETS (visited, [], tw)
            have hq1' : (NEIGHBOR_OFFSETS.foldl (pocketStep g q r)
                (visited, [], tw)).2.1 = newQ := by
              rw [hq1]
              rfl
            have hres2 : pocketFill g fuel
                (NEIGHBOR_OFFSETS.foldl (pocketStep g q r) (visited, [], tw)).1
                (rest ++ (NEIGHBOR_OFFSETS.foldl (pocketStep g q r)
                  (visited, [], tw)).2.1)
                (size + 1)
                (NEIGHBOR_OFFSETS.foldl (pocketStep g q r) (visited, [], tw)).2.2
                (checked ++ [numKey q r]) (members ++ [(q, r)]) = res := by
              rw [← hres]
              conv_rhs => simp only [pocketFill]
              rw [if_neg hbr]
            have htwf : tw = true →
                (NEIGHBOR_OFFSETS.foldl (pocketStep g q r)
                  (visited, [], tw)).2.2 = true := m4
            obtain ⟨c1, c2, c3, c4, c5, c6⟩ :=
              ih (NEIGHBOR_OFFSETS.foldl (pocketStep g q r) (visited, [], tw)).1
                (rest ++ (NEIGHBOR_OFFSETS.foldl (pocketStep g q r)
                  (visited, [], tw)).2.1)
                (size + 1)
                (NEIGHBOR_OFFSETS.foldl (pocketStep g q r) (visited, [], tw)).2.2
                (checked ++ [numKey q r]) (members ++ [(q, r)]) res hres2
                (by omega)
                (by
                  intro hef k hk
                  have htw : tw = false := by
                    rcases htwv : tw with - | -
                    · rfl
                    · exact absurd (htwf htwv) (by rw [hef]; simp)
                  exact m5 (hA htw) hef k hk)
                (by
                  intro p hp
                  rcases List.mem_append.mp hp with h | h
                  · exact hCq _ (List.mem_cons_of_mem _ h)
                  · rw [hq1'] at h
                    obtain ⟨⟨d, hd, he⟩, hget, -⟩ := hq2 p h
                    subst he
                    exact PReach.step (q, r) d hre hd hget)
                (by
                  intro p hp
                  rcases List.mem_append.mp hp with h | h
                  · exact hCm p h
                  · rw [List.mem_singleton] at h
                    subst h
                    exact hre)
                (by
                  intro p hp
                  rcases List.mem_append.mp hp with h | h
                  · exact m1 _ (hQV _ (List.mem_cons_of_mem _ h))
                  · rw [hq1'] at h
                    exact (hq2 p h).2.2)
                (by
                  intro k hk hget
                  rcases m7 k hk hget with h | ⟨p, hp, hkp⟩
                  · rcases hE k h hget with ⟨p, hp, hkp⟩ | ⟨p, hp, hkp⟩
                    · rcases List.mem_cons.mp hp with h1 | h1
                      · subst h1
                        exact Or.inr ⟨(q, r),
                          List.mem_append.mpr (Or.inr (by simp)), hkp⟩
                      · exact Or.inl ⟨p, List.mem_append.mpr (Or.inl h1), hkp⟩
                    · exact Or.inr ⟨p, List.mem_append.mpr (Or.inl hp), hkp⟩
                  · exact Or.inl ⟨p, List.mem_append.mpr (Or.inr hp), hkp⟩)
                (by
                  intro p hp d hd
                  rcases List.mem_append.mp hp with h | h
                  · exact m1 _ (hB p h d hd)
                  · rw [List.mem_singleton] at h
                    subst h
                    exact m3 d hd)
                (by
                  intro p hp
                  rcases List.mem_append.mp hp with h | h
                  · exact List.mem_append.mpr (Or.inl (hF p h))
                  · rw [List.mem_singleton] at h
                    subst h
                    exact List.mem_append.mpr (Or.inr (by simp)))
            have hc1 : res.2.2.2.length + size = res.1 + members.length := by
              rw [List.length_append, List.length_singleton] at c1
              omega
            refine ⟨hc1, ?_, ?_, c4, c5, c6⟩
            · obtain ⟨newm, hne, hns⟩ := c2
              refine ⟨(q, r) :: newm, by rw [hne]; simp, ?_⟩
              intro p hp
              rcases List.mem_cons.mp hp with h | h
              · subst h
                exact hre
              · exact hns p h
            · obtain ⟨newc, hnc⟩ := c3
              exact ⟨numKey q r :: newc, by rw [hnc]; simp⟩

theorem mapGet_none_of_has_false {g : Grid} {k : Int}
    (h : mapHas g k = false) : mapGet g k = none := by
  rcases hg : mapGet g k with - | c
  · rfl
  · rw [mapHas, hg] at h
    simp at h

theorem pocketsFold_spec (g : Grid) :
    ∀ (L : List Int),
      (∀ k ∈ L, mapHas g k = false ∧ ∃ q r, inRange q r ∧ k = numKey q r) →
      ∀ (acc : List Int × List Nat × List (List (Int × Int))),
        (∀ m ∈ acc.2.2, PocketGood g acc.1 m) →
        List.Pairwise (fun m1 m2 => ∀ p1 ∈ m1, ∀ p2 ∈ m2,
            numKey p1.1 p1.2 ≠ numKey p2.1 p2.2) acc.2.2 →
        acc.2.1 = acc.2.2.map List.length →
        (∀ m ∈ (L.foldl (fun acc cand =>
            if acc.1.contains cand then acc
            else
              let p := decodeKey cand
              let f := pocketFill g 10001 [cand] [(p.1, p.2)] 0 false acc.1 []
              if !f.2.1 && decide (f.1 ≤ 10000) && decide (0 < f.1) then
                (f.2.2.1, acc.2.1 ++ [f.1], acc.2.2 ++ [f.2.2.2])
              else (f.2.2.1, acc.2.1, acc.2.2)) acc).2.2,
          PocketGood g (L.foldl (fun acc cand =>
            if acc.1.contains cand then acc
            else
              let p := decodeKey cand
              let f := pocketFill g 10001 [cand] [(p.1, p.2)] 0 false acc.1 []
              if !f.2.1 && decide (f.1 ≤ 10000) && decide (0 < f.1) then
                (f.2.2.1, acc.2.1 ++ [f.1], acc.2.2 ++ [f.2.2.2])
              else (f.2.2.1, acc.2.1, acc.2.2)) acc).1 m) ∧
        List.Pairwise (fun m1 m2 => ∀ p1 ∈ m1, ∀ p2 ∈ m2,
            numKey p1.1 p1.2 ≠ numKey p2.1 p2.2)
          (L.foldl (fun acc cand =>
            if acc.1.contains cand then acc
            else
              let p := decodeKey cand
              let f := pocketFill g 10001 [cand] [(p.1, p.2)] 0 false acc.1 []
              if !f.2.1 && decide (f.1 ≤ 10000) && decide (0 < f.1) then
                (f.2.2.1, acc.2.1 ++ [f.1], acc.2.2 ++ [f.2.2.2])
              else (f.2.2.1, acc.2.1, acc.2.2)) acc).2.2 ∧
        (L.foldl (fun acc cand =>
            if acc.1.contains cand then acc
            else
              let p := decodeKey cand
              let f := pocketFill g 10001 [cand] [(p.1, p.2)] 0 false acc.1 []
              if !f.2.1 && decide (f.1 ≤ 10000) && decide (0 < f.1) then
                (f.2.2.1, acc.2.1 ++ [f.1], acc.2.2 ++ [f.2.2.2])
              else (f.2.2.1, acc.2.1, acc.2.2)) acc).2.1
          = ((L.foldl (fun acc cand =>
            if acc.1.contains cand then acc
            else
              let p := decodeKey cand
              let f := pocketFill g 10001 [cand] [(p.1, p.2)] 0 false acc.1 []
              if !f.2.1 && decide (f.1 ≤ 10000) && decide (0 < f.1) then
                (f.2.2.1, acc.2.1 ++ [f.1], acc.2.2 ++ [f.2.2.2])
              else (f.2.2.1, acc.2.1, acc.2.2)) acc).2.2).map List.length := by
  intro L
  induction L with
  | nil =>
      intro _ acc hgood hpw hsz
      exact ⟨hgood, hpw, hsz⟩
  | cons cand L ih =>
      intro hL acc hgood hpw hsz
      obtain ⟨hunset, q, r, hrange, hkey⟩ := hL cand (List.mem_cons_self _ _)
      have hLtail := fun k hk => hL k (List.mem_cons_of_mem _ hk)
      rw [List.foldl_cons]
      by_cases hchk : cand ∈ acc.1
      · have hstep : (if acc.1.contains cand then acc
            else
              let p := decodeKey cand
              let f := pocketFill g 10001 [cand] [(p.1, p.2)] 0 false acc.1 []
              if !f.2.1 && decide (f.1 ≤ 10000) && decide (0 < f.1) then
                (f.2.2.1, acc.2.1 ++ [f.1], acc.2.2 ++ [f.2.2.2])
              else (f.2.2.1, acc.2.1, acc.2.2)) = acc := by
          rw [if_pos (by simpa using hchk)]
        rw [hstep]
        exact ih hLtail acc hgood hpw hsz
      · have hdec : decodeKey cand = (q, r) := by
          rw [hkey]
          exact codec_roundtrip q r hrange
        have hget : mapGet g (numKey q r) = none := by
          rw [← hkey]
          exact mapGet_none_of_has_false hunset
        have hre0 : PReach g (q, r) (q, r) := PReach.refl hget
        obtain ⟨f, hf⟩ : ∃ f, pocketFill g 10001 [cand] [(q, r)] 0 false acc.1 []
            = f := ⟨_, rfl⟩
        obtain ⟨c1, ⟨newm, hnm, hsound⟩, ⟨newc, hnc⟩, c4, c5, c6⟩ :=
          pocketFill_spec g (q, r) 10001 [cand] [(q, r)] 0 false acc.1 [] f hf
            (by omega)
            (by
              intro _ k hk
              rw [List.mem_singleton] at hk
              subst hk
              rw [← hkey] at hget
              rw [hget]
              simp)
            (by
              intro p hp
              rw [List.mem_singleton] at hp
              subst hp
              exact hre0)
            (by simp)
            (by
              intro p hp
              rw [List.mem_singleton] at hp
              subst hp
              rw [List.mem_singleton, hkey])
            (by
              intro k hk _
              rw [List.mem_singleton] at hk
              subst hk
              exact Or.inl ⟨(q, r), List.mem_singleton.mpr rfl, hkey.symm⟩)
            (by simp)
            (by simp)
        rw [List.nil_append] at hnm
        have hstep : (if acc.1.contains cand then acc
            else
              let p := decodeKey cand
              let f := pocketFill g 10001 [cand] [(p.1, p.2)] 0 false acc.1 []
              if !f.2.1 && decide (f.1 ≤ 10000) && decide (0 < f.1) then
                (f.2.2.1, acc.2.1 ++ [f.1], acc.2.2 ++ [f.2.2.2])
              else (f.2.2.1, acc.2.1, acc.2.2))
            = (if !(pocketFill g 10001 [cand] [(q, r)] 0 false acc.1 []).2.1
                  && decide ((pocketFill g 10001 [cand] [(q, r)]
                    0 false acc.1 []).1 ≤ 10000)
                  && decide (0 < (pocketFill g 10001 [cand] [(q, r)]
                    0 false acc.1 []).1) then
                ((pocketFill g 10001 [cand] [(q, r)] 0 false acc.1 []).2.2.1,
                 acc.2.1 ++ [(pocketFill g 10001 [cand] [(q, r)]
                   0 false acc.1 []).1],
                 acc.2.2 ++ [(pocketFill g 10001 [cand] [(q, r)]
                   0 false acc.1 []).2.2.2])
              else ((pocketFill g 10001 [cand] [(q, r)] 0 false acc.1 []).2.2.1,
                acc.2.1, acc.2.2)) := by
          rw [if_neg (by simpa using hchk), hdec]
        rw [hstep, hf]
        have hgood2 : ∀ m ∈ acc.2.2, PocketGood g f.2.2.1 m := by
          intro m hm
          obtain ⟨g1, g2, g3, g4⟩ := hgood m hm
          refine ⟨g1, g2, g3, ?_⟩
          intro p hp
          rw [hnc]
          exact List.mem_append.mpr (Or.inl (g4 p hp))
        by_cases hrep : (!f.2.1 && decide (f.1 ≤ 10000) && decide (0 < f.1)) = true
        · have htwf : f.2.1 = false := by
            rcases hb : f.2.1 with - | -
            · rfl
            · rw [hb] at hrep
              simp at hrep
          have hle : f.1 ≤ 10000 := by
            rcases hrep2 : decide (f.1 ≤ 10000) with - | -
            · rw [hrep2] at hrep
              simp at hrep
            · exact of_decide_eq_true hrep2
          have hnewgood : PocketGood g f.2.2.1 f.2.2.2 := by
            refine ⟨?_, c5 htwf hle, c6 hle, c4⟩
            intro p hp
            rw [hnm] at hp
            exact preach_unset (hsound p hp)
          have hdisj : ∀ m ∈ acc.2.2, ∀ p1 ∈ m, ∀ p2 ∈ f.2.2.2,
              numKey p1.1 p1.2 ≠ numKey p2.1 p2.2 := by
            intro m hm p1 hp1 p2 hp2 hkeq
            obtain ⟨g1, g2, g3, g4⟩ := hgood m hm
            have hre2 : PReach g (q, r) p2 := by
              rw [hnm] at hp2
              exact hsound p2 hp2
            obtain ⟨pm, hpm, hpmk⟩ :=
              preach_closed_start g3 p2 hre2 ⟨p1, hp1, hkeq⟩
            have : numKey pm.1 pm.2 ∈ acc.1 := g4 pm hpm
            rw [hpmk] at this
            have : cand ∈ acc.1 := by
              rw [hkey]
              exact this
            exact hchk this
          have hlen : f.1 = f.2.2.2.length := by
            rw [hnm] at c1 ⊢
            simp at c1
            omega
          rw [if_pos hrep]
          refine ih hLtail (f.2.2.1, acc.2.1 ++ [f.1], acc.2.2 ++ [f.2.2.2])
            ?_ ?_ ?_
          · intro m hm
            rcases List.mem_append.mp hm with h | h
            · exact hgood2 m h
            · rw [List.mem_singleton] at h
              subst h
              exact hnewgood
          · rw [List.pairwise_append]
            refine ⟨hpw, List.pairwise_singleton _ _, ?_⟩
            intro m1 hm1 m2 hm2
            rw [List.mem_singleton] at hm2
            subst hm2
            exact hdisj m1 hm1
          · rw [List.map_append, List.map_singleton, hsz, hlen]
        · rw [if_neg hrep]
          exact ih hLtail (f.2.2.1, acc.2.1, acc.2.2) hgood2 hpw hsz

/-- C8: every pocket `findEncircledPockets` reports contains no cell
adjacent to a white (friendly) cell, the reported pockets are pairwise
disjoint as sets of cells (no unset cell is assigned to two reported
pockets in one invocation), and each reported size is the member count
of its pocket. -/
theorem findEncircledPockets_spec (g : Grid) (hwf : wellFormed g) :
    (∀ m ∈ (findEncircledPockets g).2, ∀ p ∈ m, ∀ d ∈ NEIGHBOR_OFFSETS,
        mapGet g (numKey (p.1 + d.1) (p.2 + d.2)) ≠ some true) ∧
    List.Pairwise (fun m1 m2 => ∀ p1 ∈ m1, ∀ p2 ∈ m2,
        numKey p1.1 p1.2 ≠ numKey p2.1 p2.2) (findEncircledPockets g).2 ∧
    (findEncircledPockets g).1 = (findEncircledPockets g).2.map List.length := by
  obtain ⟨hgood, hpw, hsz⟩ :=
    pocketsFold_spec g (collectCandidates g) (collectCandidates_spec g hwf)
      ([], [], []) (by simp) List.Pairwise.nil (by simp)
  refine ⟨?_, hpw, hsz⟩
  intro m hm p hp d hd
  exact ((hgood m hm).2.1) p hp d hd

/-- Witness for C8 on the ring-scenario grid. -/
theorem findEncircledPockets_spec_witness :
    wellFormed ringSt.colors ∧
    ((∀ m ∈ (findEncircledPockets ringSt.colors).2, ∀ p ∈ m,
        ∀ d ∈ NEIGHBOR_OFFSETS,
        mapGet ringSt.colors (numKey (p.1 + d.1) (p.2 + d.2)) ≠ some true) ∧
      List.Pairwise (fun m1 m2 => ∀ p1 ∈ m1, ∀ p2 ∈ m2,
          numKey p1.1 p1.2 ≠ numKey p2.1 p2.2)
        (findEncircledPockets ringSt.colors).2 ∧
      (findEncircledPockets ringSt.colors).1
        = (findEncircledPockets ringSt.colors).2.map List.length) := by
  have hwf : wellFormed ringSt.colors := by
    intro e he
    have hcl : ringSt.colors
        = [(numKey 0 0, true), (numKey 1 0, false), (numKey 1 (-1), false),
           (numKey 0 (-1), false), (numKey (-1) 0, false),
           (numKey (-1) 1, false), (numKey 0 1, false)] := by decide
    rw [hcl] at he
    simp only [List.mem_cons, List.not_mem_nil, or_false] at he
    rcases he with h | h | h | h | h | h | h
    · exact ⟨0, 0, by decide, by rw [h]⟩
    · exact ⟨1, 0, by decide, by rw [h]⟩
    · exact ⟨1, -1, by decide, by rw [h]⟩
    · exact ⟨0, -1, by decide, by rw [h]⟩
    · exact ⟨-1, 0, by decide, by rw [h]⟩
    · exact ⟨-1, 1, by decide, by rw [h]⟩
    · exact ⟨0, 1, by decide, by rw [h]⟩
  exact ⟨hwf, findEncircledPockets_spec ringSt.colors hwf⟩
